import Mathlib

/-!
Shallow embedding of the block-production core (miner orchestrator) of the
`parity` repository, translated from `src/ethcore/src/miner/miner.rs`.

External collaborators that the spec declares out of scope (the chain client,
the consensus engine, block execution, the transaction-queue internals) are
represented as oracle functions carried in `Chain`, `Engine` and `TxQueue`;
the orchestrator logic itself is translated from the source line by line.
Wall-clock instants are naturals; every function that reads `Nat::now()`
takes the current instant as an explicit argument.
-/

namespace PM


/-- Transaction origin (`miner::TransactionOrigin`). -/
inductive TransactionOrigin
  | Local
  | External
  | RetractedBlock
deriving DecidableEq, Repr

/-- `transaction::Condition`: earliest block or timestamp of inclusion. -/
inductive Condition
  | atBlock (n : Nat)
  | atTimestamp (t : Nat)
deriving DecidableEq, Repr

/-- `miner::RemovalReason` for queue removals. -/
inductive RemovalReason
  | Invalid
  | Canceled
  | Included
deriving DecidableEq, Repr

/-- `client::TransactionImportResult`. -/
inductive ImportResult
  | Current
  | Future
deriving DecidableEq, Repr

/-- Transaction-level errors surfaced by the import paths. -/
inductive TxError
  | AlreadyImported
  | InvalidSignature
  | NotAllowed
deriving DecidableEq, Repr

/-- Errors returned by `open_block.push_transaction` as `prepare_block`
distinguishes them: the two execution errors it matches on, the
`Transaction(AlreadyImported)` case, and a catch-all for every other error. -/
inductive PushError
  | blockGasLimitReached (gas_limit gas_used gas : Nat)
  | invalidNonce (expected got : Nat)
  | alreadyImported
  | otherError (code : Nat)
deriving DecidableEq, Repr

/-- `util::using_queue::GetAction`. -/
inductive GetAction
  | Take
  | Clone
deriving DecidableEq, Repr

/-- Block header fields the miner reads. -/
structure Header where
  number : Nat
  hash : Nat
  parentHash : Nat
  difficulty : Nat
  gasLimit : Nat
deriving DecidableEq, Repr

/-- A transaction as the orchestrator sees it. -/
structure Tx where
  hash : Nat
  sender : Nat
  nonce : Nat
deriving DecidableEq, Repr

/-- The receipt fields `pending_receipt(s)` reads. -/
structure ReceiptM where
  gasUsed : Nat
  stateRoot : Nat
deriving DecidableEq, Repr

/-- An open (under construction) candidate block. -/
structure OpenBlock where
  header : Header
  transactions : List Tx
deriving DecidableEq, Repr

/-- A closed candidate block: frozen transactions, receipts, and the pending
state reached by applying them (represented by its lookup functions). -/
structure ClosedBlock where
  header : Header
  transactions : List Tx
  receipts : List ReceiptM
  stateBalance : Nat → Nat
  stateNonce : Nat → Nat
  stateStorage : Nat → Nat → Nat
  stateCode : Nat → Option (List Nat)

/-- Modelled from the spec: the sealing-work queue type (`UsingQueue` of
`util::using_queue`, whose source is not part of this repository's files) is
"a bounded ordered history of closed candidate blocks plus a flag marking
whether each has been handed out", providing push, peek-last,
pop-if(predicate), get-used-if(predicate, Take|Clone), mark-last-in-use,
reset and is-anything-in-use. The history list is ordered oldest first; the
Bool marks a handed-out entry. -/
structure UsingQueue (α : Type) where
  maxSize : Nat
  history : List (α × Bool)

/-- Modelled from the spec: push appends and the bounded history drops its
oldest entries beyond `maxSize`. -/
def UsingQueue.push {α : Type} (q : UsingQueue α) (a : α) : UsingQueue α :=
  let h := q.history ++ [(a, false)]
  { q with history := h.drop (h.length - q.maxSize) }

/-- Modelled from the spec: peek-last returns the most recent entry. -/
def UsingQueue.peekLast? {α : Type} (q : UsingQueue α) : Option α :=
  q.history.getLast?.map Prod.fst

/-- Modelled from the spec: pop-if removes and returns the most recent entry
when it satisfies the predicate. -/
def UsingQueue.popIf {α : Type} (q : UsingQueue α) (p : α → Bool) :
    Option α × UsingQueue α :=
  match q.history.getLast? with
  | some ab =>
      if p ab.fst then (some ab.fst, { q with history := q.history.dropLast })
      else (none, q)
  | none => (none, q)

/-- Modelled from the spec: mark-last-in-use flags the most recent entry as
handed out and returns it. -/
def UsingQueue.useLastRef {α : Type} (q : UsingQueue α) :
    Option α × UsingQueue α :=
  match q.history.getLast? with
  | some ab =>
      (some ab.fst, { q with history := q.history.dropLast ++ [(ab.fst, true)] })
  | none => (none, q)

/-- Modelled from the spec: get-used-if looks a candidate up by predicate;
`Clone` leaves the queue unchanged, `Take` removes the match. -/
def UsingQueue.getUsedIf {α : Type} (q : UsingQueue α) (act : GetAction)
    (p : α → Bool) : Option α × UsingQueue α :=
  match q.history.find? (fun ab => p ab.fst) with
  | some ab =>
      match act with
      | .Clone => (some ab.fst, q)
      | .Take => (some ab.fst, { q with history := q.history.eraseP (fun cd => p cd.fst) })
  | none => (none, q)

/-- Modelled from the spec: reset empties the history. -/
def UsingQueue.reset {α : Type} (q : UsingQueue α) : UsingQueue α :=
  { q with history := [] }

/-- Modelled from the spec: is-anything-in-use. -/
def UsingQueue.isInUse {α : Type} (q : UsingQueue α) : Bool :=
  q.history.any (fun ab => ab.snd)

/-- `SealingWork`: the sealing-work queue plus the `enabled` flag. -/
structure SealingWork where
  queue : UsingQueue ClosedBlock
  enabled : Bool

/-- `miner::PendingSet`. -/
inductive PendingSet
  | AlwaysQueue
  | AlwaysSealing
  | SealingOrElseQueue
deriving DecidableEq, Repr

/-- `miner::Banning`. -/
inductive Banning
  | Disabled
  | Enabled (offend_threshold : Nat) (min_offends : Nat) (ban_duration : Nat)
deriving DecidableEq, Repr

/-- `miner::GasLimit` configuration of the queue's total gas limit. -/
inductive GasLimitConf
  | Auto
  | NoLimit
  | Fixed (v : Nat)
deriving DecidableEq, Repr

/-- The `MinerOptions` fields the embedded operations read. -/
structure MinerOptions where
  new_work_notify : List Nat
  force_sealing : Bool
  reseal_on_external_tx : Bool
  reseal_on_own_tx : Bool
  reseal_min_period : Nat
  reseal_max_period : Nat
  pending_set : PendingSet
  work_queue_size : Nat
  enable_resubmission : Bool
  tx_queue_gas_limit : GasLimitConf
  tx_queue_banning : Banning
deriving DecidableEq, Repr

/-- The engine parameters `prepare_block` reads for the nonce cap. -/
structure EngineParams where
  dust_protection_transition : Nat
  nonce_cap_increment : Nat
deriving DecidableEq, Repr

/-- The result of `engine.generate_seal`. -/
inductive SealOutcome
  | Regular (sealFields : List Nat)
  | Proposal (sealFields : List Nat)
  | NoSeal
deriving DecidableEq, Repr

/-- The consensus engine, an external collaborator: its answers are oracle
functions. `verify_transaction` returns `none` when the basic and
engine-specific checks both pass. -/
structure Engine where
  seals_internally : Option Bool
  params : EngineParams
  verify_transaction : Tx → Header → Option TxError
  try_seal : ClosedBlock → List Nat → Bool
  generate_seal : ClosedBlock → SealOutcome

/-- The chain client, an external collaborator: state lookups, block access
and block construction are oracle functions. `push_took` is the wall-clock
oracle giving the duration a `push_transaction` call takes. -/
structure Chain where
  best_block_header : Header
  best_block_timestamp : Nat
  latest_balance : Nat → Nat
  latest_nonce : Nat → Nat
  latest_storage : Nat → Nat → Nat
  latest_code : Nat → Option (List Nat)
  tx_in_chain : Nat → Bool
  block_transactions : Nat → List Tx
  prepare_open_block : Nat → Nat × Nat → List Nat → OpenBlock
  push_transaction : OpenBlock → Tx → Except PushError OpenBlock
  push_took : Tx → Nat
  close_block : OpenBlock → ClosedBlock
  reopen_block : ClosedBlock → OpenBlock
  import_sealed_ok : ClosedBlock → Bool

/-- `chain.chain_info().best_block_number`. -/
def Chain.best_block_number (c : Chain) : Nat :=
  c.best_block_header.number

/-- `chain.chain_info().best_block_hash`. -/
def Chain.best_block_hash (c : Chain) : Nat :=
  c.best_block_header.hash

/-- An entry admitted into the transaction queue: the transaction, the origin
it was admitted under, whether it went through the banlist path
(`add_with_banlist`), and its insertion time and condition. -/
structure TQEntry where
  tx : Tx
  origin : TransactionOrigin
  via_banlist : Bool
  insertion_time : Nat
  condition : Option Condition
deriving DecidableEq, Repr

/-- One call the orchestrator makes on the queue facade; `removeOp` and
`removeOldOp` record the oracle function the orchestrator supplied. -/
inductive QueueOp
  | removeOp (h : Nat) (nonce_oracle : Nat → Nat) (reason : RemovalReason)
  | penalizeOp (h : Nat)
  | banOp (h : Nat)
  | removeOldOp (account_oracle : Nat → Nat × Nat) (time : Nat)
  | setGasLimitOp (l : Nat)
  | setTotalGasLimitOp (l : Nat)
  | setMinimalGasPriceOp (p : Nat)

/-- Modelled from the spec: the transaction-queue facade (§4.2), whose
ordering and admission internals are deliberately out of scope. The model
keeps the admitted entries and the journal of facade calls; the listing
answers (`top_transactions_at`, `pending_transactions`, `pending_hashes`,
`find`), the banning threshold and `has_local_pending_transactions` are
oracle fields. -/
structure TxQueue where
  entries : List TQEntry
  journal : List QueueOp
  has_local_pending : Bool
  ban_reaches : Nat → Bool
  top_transactions : Nat → Nat → Option Nat → List Tx
  pending_txs : Nat → Nat → List Tx
  pending_hashes : List Nat
  find_tx : Nat → Option Tx

/-- Modelled from the spec: `add(tx, origin, insertion_time, condition?, ...)`
on the Local/RetractedBlock path, which "skips the gas-price-floor and
banlist"; admission internals being out of scope, the model records the
entry and reports `Current`. -/
def TxQueue.add (q : TxQueue) (tx : Tx) (origin : TransactionOrigin)
    (time : Nat) (cond : Option Condition) :
    TxQueue × Except TxError ImportResult :=
  ({ q with entries := q.entries ++ [⟨tx, origin, false, time, cond⟩] },
   Except.ok ImportResult.Current)

/-- Modelled from the spec: `add_with_banlist` admits an External transaction
through the banning/gas-price-floor path. -/
def TxQueue.add_with_banlist (q : TxQueue) (tx : Tx) (time : Nat) :
    TxQueue × Except TxError ImportResult :=
  ({ q with entries := q.entries ++ [⟨tx, .External, true, time, none⟩] },
   Except.ok ImportResult.Current)

/-- Modelled from the spec: `remove(hash, nonce_oracle, reason)` drops the
entry and journals the call with the oracle the orchestrator supplied. -/
def TxQueue.remove (q : TxQueue) (h : Nat) (nonce_oracle : Nat → Nat)
    (reason : RemovalReason) : TxQueue :=
  { q with entries := q.entries.filter (fun e => e.tx.hash != h),
           journal := q.journal ++ [.removeOp h nonce_oracle reason] }

/-- Modelled from the spec: `penalize(hash)`. -/
def TxQueue.penalize (q : TxQueue) (h : Nat) : TxQueue :=
  { q with journal := q.journal ++ [.penalizeOp h] }

/-- Modelled from the spec: `ban(hash) → bool` (true iff the ban threshold was
reached). -/
def TxQueue.ban_transaction (q : TxQueue) (h : Nat) : TxQueue × Bool :=
  ({ q with journal := q.journal ++ [.banOp h] }, q.ban_reaches h)

/-- Modelled from the spec: `remove_old(account_oracle, now)` ages the queue
against (nonce, balance) snapshots; aging internals are out of scope, so the
model journals the call. -/
def TxQueue.remove_old (q : TxQueue) (account_oracle : Nat → Nat × Nat)
    (time : Nat) : TxQueue :=
  { q with journal := q.journal ++ [.removeOldOp account_oracle time] }

/-- Modelled from the spec: `set_gas_limit`. -/
def TxQueue.set_gas_limit (q : TxQueue) (l : Nat) : TxQueue :=
  { q with journal := q.journal ++ [.setGasLimitOp l] }

/-- Modelled from the spec: `set_total_gas_limit`. -/
def TxQueue.set_total_gas_limit (q : TxQueue) (l : Nat) : TxQueue :=
  { q with journal := q.journal ++ [.setTotalGasLimitOp l] }

/-- Modelled from the spec: `set_minimal_gas_price`. -/
def TxQueue.set_minimal_gas_price (q : TxQueue) (p : Nat) : TxQueue :=
  { q with journal := q.journal ++ [.setMinimalGasPriceOp p] }

/-- The gas pricer: `Fixed` always publishes the given price; the calibrated
mode's asynchronous external fetch is fire-and-forget and not modelled. -/
inductive GasPricerM
  | FixedPrice (wei : Nat)
  | Calibrated
deriving DecidableEq, Repr

/-- The immutable part of the miner: configuration, engine and the optional
managed-account set (`self.accounts`, already flattened through
`provider.accounts().ok()`). -/
structure MinerCfg where
  options : MinerOptions
  engine : Engine
  accounts : Option (List Nat)

/-- The mutable state of the miner singleton. `imported_blocks`,
`notified_work` and `broadcast_blocks` journal the externally visible effects
(chain imports, work notifications, proposal broadcasts). -/
structure MinerState where
  tx_queue : TxQueue
  sealing_work : SealingWork
  next_allowed_reseal : Nat
  next_mandatory_reseal : Nat
  sealing_block_last_request : Nat
  author : Nat
  extra_data : List Nat
  gas_range_target : Nat × Nat
  notifiers : List Nat
  gas_pricer : GasPricerM
  imported_blocks : List Nat
  notified_work : List (Nat × Nat × Nat)
  broadcast_blocks : List Nat

/-- `Miner::forced_sealing`. -/
def Miner.forced_sealing (cfg : MinerCfg) (st : MinerState) : Bool :=
  cfg.options.force_sealing || !st.notifiers.isEmpty

/-- `Miner::from_pending_block`: dispatch between the most recent closed
candidate block and the chain, by the candidate's header number against the
caller's latest block number. -/
def Miner.from_pending_block {H : Type} (st : MinerState)
    (latest_block_number : Nat) (from_chain : Unit → H)
    (map_block : ClosedBlock → H) : H :=
  match st.sealing_work.queue.peekLast? with
  | none => from_chain ()
  | some b =>
      if b.header.number > latest_block_number then map_block b
      else from_chain ()

/-- `Miner::balance`. -/
def Miner.balance (st : MinerState) (chain : Chain) (address : Nat) :
    Option Nat :=
  Miner.from_pending_block st chain.best_block_number
    (fun _ => some (chain.latest_balance address))
    (fun b => some (b.stateBalance address))

/-- `Miner::storage_at`. -/
def Miner.storage_at (st : MinerState) (chain : Chain) (address : Nat)
    (position : Nat) : Option Nat :=
  Miner.from_pending_block st chain.best_block_number
    (fun _ => some (chain.latest_storage address position))
    (fun b => some (b.stateStorage address position))

/-- `Miner::nonce`. -/
def Miner.nonce (st : MinerState) (chain : Chain) (address : Nat) :
    Option Nat :=
  Miner.from_pending_block st chain.best_block_number
    (fun _ => some (chain.latest_nonce address))
    (fun b => some (b.stateNonce address))

/-- `Miner::code`. -/
def Miner.code (st : MinerState) (chain : Chain) (address : Nat) :
    Option (Option (List Nat)) :=
  Miner.from_pending_block st chain.best_block_number
    (fun _ => some (chain.latest_code address))
    (fun b => some (b.stateCode address))

/-- `SEALING_TIMEOUT_IN_BLOCKS`. -/
def SEALING_TIMEOUT_IN_BLOCKS : Nat := 5

/-- The empty queue facade with inert oracles, as the miner constructor
builds it. -/
def TxQueue.empty : TxQueue where
  entries := []
  journal := []
  has_local_pending := false
  ban_reaches := fun _ => false
  top_transactions := fun _ _ _ => []
  pending_txs := fun _ _ => []
  pending_hashes := []
  find_tx := fun _ => none

/-- `Miner::new_raw`: the initial miner state. `sealing_work.enabled` is
initialized to `force_sealing || !new_work_notify.is_empty() ||
engine.seals_internally().is_some()`; a `WorkPoster` notifier is registered
exactly when `new_work_notify` is non-empty. -/
def Miner.init_state (cfg : MinerCfg) (now : Nat) : MinerState where
  tx_queue := TxQueue.empty
  sealing_work :=
    { queue := { maxSize := cfg.options.work_queue_size, history := [] }
      enabled := cfg.options.force_sealing
        || !cfg.options.new_work_notify.isEmpty
        || cfg.engine.seals_internally.isSome }
  next_allowed_reseal := now
  next_mandatory_reseal := now + cfg.options.reseal_max_period
  sealing_block_last_request := 0
  author := 0
  extra_data := []
  gas_range_target := (0, 0)
  notifiers := if cfg.options.new_work_notify.isEmpty then [] else [0]
  gas_pricer := GasPricerM.FixedPrice 0
  imported_blocks := []
  notified_work := []
  broadcast_blocks := []

/-- `Miner::push_notifier`: registers a notifier and enables sealing. -/
def Miner.push_notifier (n : Nat) (st : MinerState) : MinerState :=
  { st with notifiers := st.notifiers ++ [n],
            sealing_work := { st.sealing_work with enabled := true } }

/-- `Miner::clear`: resets the sealing-work queue. -/
def Miner.clear (st : MinerState) : MinerState :=
  { st with sealing_work := { st.sealing_work with queue := st.sealing_work.queue.reset } }

/-- `Miner::requires_reseal`: decides whether a reseal is allowed and
necessary; may disable sealing and reset the work queue, and on every true
return pushes `next_allowed_reseal` forward by `reseal_min_period`. -/
def Miner.requires_reseal (cfg : MinerCfg) (now : Nat)
    (best_block : Nat) (st : MinerState) : Bool × MinerState :=
  let has_local_transactions := st.tx_queue.has_local_pending
  if st.sealing_work.enabled then
    let last_request := st.sealing_block_last_request
    let should_disable_sealing := !Miner.forced_sealing cfg st
      && !has_local_transactions
      && cfg.engine.seals_internally.isNone
      && decide (best_block > last_request)
      && decide (best_block - last_request > SEALING_TIMEOUT_IN_BLOCKS)
    if should_disable_sealing then
      (false, { st with sealing_work :=
        { enabled := false, queue := st.sealing_work.queue.reset } })
    else
      (true, { st with next_allowed_reseal := now + cfg.options.reseal_min_period })
  else
    (false, st)

/-- `Miner::tx_reseal_allowed`. -/
def Miner.tx_reseal_allowed (now : Nat) (st : MinerState) : Bool :=
  decide (now > st.next_allowed_reseal)

/-- The `min_tx_gas` constant of the push loop (21000). -/
def min_tx_gas : Nat := 21000

/-- Accumulators and result of `prepare_block`'s transaction push loop. -/
structure LoopOut where
  block : OpenBlock
  queue : TxQueue
  invalid : List Nat
  penalized : List Nat
  tx_count : Nat

/-- The heavy-transaction check of the push loop: with banning enabled and a
push that took longer than `offend_threshold`, try to ban; when the ban
threshold is not yet reached, record the hash for penalization instead. -/
def Miner.heavy_check (opts : MinerOptions) (chain : Chain) (tx : Tx)
    (q : TxQueue) (pen : List Nat) : TxQueue × List Nat :=
  match opts.tx_queue_banning with
  | Banning.Enabled offend_threshold _ _ =>
      if chain.push_took tx > offend_threshold then
        let bq := q.ban_transaction tx.hash
        if bq.snd then (bq.fst, pen) else (bq.fst, pen ++ [tx.hash])
      else (q, pen)
  | Banning.Disabled => (q, pen)

/-- The transaction push loop of `Miner::prepare_block`: pushes the queue's
transactions in order, classifying each push error as in the source. -/
def Miner.push_loop (opts : MinerOptions) (chain : Chain) :
    List Tx → OpenBlock → TxQueue → List Nat → List Nat → Nat → LoopOut
  | [], b, q, inv, pen, cnt => ⟨b, q, inv, pen, cnt⟩
  | tx :: rest, b, q, inv, pen, cnt =>
    let qp := Miner.heavy_check opts chain tx q pen
    match chain.push_transaction b tx with
    | Except.ok bNext =>
        Miner.push_loop opts chain rest bNext qp.fst inv qp.snd (cnt + 1)
    | Except.error (PushError.blockGasLimitReached gas_limit gas_used gas) =>
        let pen2 := if gas > gas_limit then qp.snd ++ [tx.hash] else qp.snd
        if gas_limit - gas_used < min_tx_gas then ⟨b, qp.fst, inv, pen2, cnt⟩
        else Miner.push_loop opts chain rest b qp.fst inv pen2 cnt
    | Except.error (PushError.invalidNonce _ _) =>
        Miner.push_loop opts chain rest b qp.fst inv qp.snd cnt
    | Except.error PushError.alreadyImported =>
        Miner.push_loop opts chain rest b qp.fst inv qp.snd cnt
    | Except.error (PushError.otherError _) =>
        Miner.push_loop opts chain rest b qp.fst (inv ++ [tx.hash]) qp.snd cnt

/-- `Miner::prepare_block`: snapshot the ordered top transactions (honoring
the dust-protection nonce cap), reopen the last candidate when its parent is
still the best hash or author a fresh open block, push the transactions,
close, then remove every invalid hash (reason Invalid, nonce oracle
`chain.latest_nonce`) and penalize every penalize-hash. -/
def Miner.prepare_block (cfg : MinerCfg) (chain : Chain) (st : MinerState) :
    ClosedBlock × Option Nat × MinerState :=
  let nonce_cap : Option Nat :=
    if chain.best_block_number + 1 ≥ cfg.engine.params.dust_protection_transition
    then some (cfg.engine.params.nonce_cap_increment * (chain.best_block_number + 1))
    else none
  let transactions := st.tx_queue.top_transactions chain.best_block_number
    chain.best_block_timestamp nonce_cap
  let last_work_hash := st.sealing_work.queue.peekLast?.map (fun pb => pb.header.hash)
  let popped := st.sealing_work.queue.popIf
    (fun b => b.header.parentHash == chain.best_block_hash)
  let open_block :=
    match popped.fst with
    | some old_block => chain.reopen_block old_block
    | none => chain.prepare_open_block st.author st.gas_range_target st.extra_data
  let out := Miner.push_loop cfg.options chain transactions open_block
    st.tx_queue [] [] 0
  let block := chain.close_block out.block
  let q2 := out.invalid.foldl
    (fun q h => q.remove h chain.latest_nonce RemovalReason.Invalid) out.queue
  let q3 := out.penalized.foldl (fun q h => q.penalize h) q2
  (block, last_work_hash,
   { st with tx_queue := q3,
             sealing_work := { st.sealing_work with queue := popped.snd } })

/-- `Miner::prepare_work`: push the closed block as new work when its hash
differs from the last candidate's, and notify every registered notifier with
(pow hash, difficulty, number) when it also differs from the
previous-candidate hash. -/
def Miner.prepare_work (st : MinerState) (block : ClosedBlock)
    (original_work_hash : Option Nat) : MinerState :=
  let last_work_hash := st.sealing_work.queue.peekLast?.map (fun pb => pb.header.hash)
  let bh := block.header.hash
  if (last_work_hash.map (fun h => h != bh)).getD true then
    let pow_hash := bh
    let number := block.header.number
    let difficulty := block.header.difficulty
    let is_new := (original_work_hash.map (fun h => bh != h)).getD true
    let q1 := st.sealing_work.queue.push block
    let q2 := if !st.notifiers.isEmpty && is_new then (q1.useLastRef).snd else q1
    let st1 := { st with sealing_work := { st.sealing_work with queue := q2 } }
    if is_new then
      { st1 with notified_work := st1.notified_work
          ++ st1.notifiers.map (fun _ => (pow_hash, difficulty, number)) }
    else st1
  else st

/-- `Miner::seal_and_import_block_internally`: attempted only when the block
has transactions, sealing is forced, or the mandatory-reseal deadline passed;
handles the three outcomes of `engine.generate_seal`. -/
def Miner.seal_and_import_block_internally (cfg : MinerCfg) (chain : Chain)
    (now : Nat) (block : ClosedBlock) (st : MinerState) :
    Bool × MinerState :=
  if !block.transactions.isEmpty || Miner.forced_sealing cfg st
      || decide (now > st.next_mandatory_reseal) then
    match cfg.engine.generate_seal block with
    | SealOutcome.Proposal s =>
        let st1 := { st with next_mandatory_reseal := now + cfg.options.reseal_max_period }
        let q1 := st1.sealing_work.queue.push block
        let q2 := (q1.useLastRef).snd
        let st2 := { st1 with sealing_work := { st1.sealing_work with queue := q2 } }
        if cfg.engine.try_seal block s then
          (true, { st2 with broadcast_blocks := st2.broadcast_blocks ++ [block.header.hash] })
        else (false, st2)
    | SealOutcome.Regular s =>
        let st1 := { st with next_mandatory_reseal := now + cfg.options.reseal_max_period }
        if cfg.engine.try_seal block s then
          (chain.import_sealed_ok block,
           { st1 with imported_blocks := st1.imported_blocks ++ [block.header.hash] })
        else (false, st1)
    | SealOutcome.NoSeal => (false, st)
  else (false, st)

/-- `Miner::update_sealing`: when `requires_reseal` answers true, prepare a
candidate block, then seal internally, prepare work for external workers, or
do nothing, according to `engine.seals_internally()`. -/
def Miner.update_sealing (cfg : MinerCfg) (chain : Chain) (now : Nat)
    (st : MinerState) : MinerState :=
  let rq := Miner.requires_reseal cfg now chain.best_block_number st
  if rq.fst then
    let pb := Miner.prepare_block cfg chain rq.snd
    match cfg.engine.seals_internally with
    | some true =>
        (Miner.seal_and_import_block_internally cfg chain now pb.fst pb.snd.snd).snd
    | none => Miner.prepare_work pb.snd.snd pb.fst pb.snd.fst
    | some false => pb.snd.snd
  else rq.snd

/-- `Miner::prepare_work_sealing`: when no candidate block exists, enable
sealing and prepare block + work; always refresh
`sealing_block_last_request`; returns whether a new pending block had to be
prepared. -/
def Miner.prepare_work_sealing (cfg : MinerCfg) (chain : Chain)
    (st : MinerState) : Bool × MinerState :=
  let have_work := st.sealing_work.queue.peekLast?.isSome
  let prepare_new := !have_work
  let st1 :=
    if prepare_new then
      let stE := { st with sealing_work := { st.sealing_work with enabled := true } }
      let pb := Miner.prepare_block cfg chain stE
      Miner.prepare_work pb.snd.snd pb.fst pb.snd.fst
    else st
  (prepare_new, { st1 with sealing_block_last_request := chain.best_block_number })

/-- The origin a transaction is admitted under: Local when the recovered
sender is one of the managed accounts, the caller's default otherwise
(source lines 634-639). -/
def Miner.effective_origin (cfg : MinerCfg) (tx : Tx)
    (default_origin : TransactionOrigin) : TransactionOrigin :=
  match cfg.accounts with
  | some accts =>
      if tx.sender ∈ accts then TransactionOrigin.Local else default_origin
  | none => default_origin

/-- One step of `add_transactions_to_queue`: processes a single transaction,
as the body of the source's `transactions.into_iter().map(...)` does —
it rejects a transaction already in the blockchain as AlreadyImported,
verifies against the best header, overrides the origin to Local when the
recovered sender is a managed account, and dispatches Local/RetractedBlock
to the plain `add` and External to `add_with_banlist`. -/
def Miner.add_tx_step (cfg : MinerCfg) (chain : Chain)
    (default_origin : TransactionOrigin) (condition : Option Condition)
    (acc : TxQueue × List (Except TxError ImportResult)) (tx : Tx) :
    TxQueue × List (Except TxError ImportResult) :=
  if chain.tx_in_chain tx.hash then
    (acc.fst, acc.snd ++ [Except.error TxError.AlreadyImported])
  else
    match cfg.engine.verify_transaction tx chain.best_block_header with
    | some e => (acc.fst, acc.snd ++ [Except.error e])
    | none =>
      let origin := Miner.effective_origin cfg tx default_origin
      match origin with
      | TransactionOrigin.External =>
          let ar := acc.fst.add_with_banlist tx chain.best_block_number
          (ar.fst, acc.snd ++ [ar.snd])
      | _ =>
          let ar := acc.fst.add tx origin chain.best_block_number condition
          (ar.fst, acc.snd ++ [ar.snd])

/-- `Miner::add_transactions_to_queue`: per-transaction admission over the
whole batch, threading the queue. -/
def Miner.add_transactions_to_queue (cfg : MinerCfg) (chain : Chain)
    (transactions : List Tx) (default_origin : TransactionOrigin)
    (condition : Option Condition) (q0 : TxQueue) :
    TxQueue × List (Except TxError ImportResult) :=
  transactions.foldl (Miner.add_tx_step cfg chain default_origin condition) (q0, [])

/-- Whether an import result is Ok. -/
def exceptOk (r : Except TxError ImportResult) : Bool :=
  match r with
  | Except.ok _ => true
  | Except.error _ => false

/-- `Miner::import_external_transactions`: admit the batch under origin
External, then trigger `update_sealing` when the result list is non-empty,
`reseal_on_external_tx` is set and the rate limit has passed. -/
def Miner.import_external_transactions (cfg : MinerCfg) (chain : Chain)
    (now : Nat) (transactions : List Tx) (st : MinerState) :
    List (Except TxError ImportResult) × MinerState :=
  let qr := Miner.add_transactions_to_queue cfg chain transactions
    TransactionOrigin.External none st.tx_queue
  let st1 := { st with tx_queue := qr.fst }
  if !qr.snd.isEmpty && cfg.options.reseal_on_external_tx
      && Miner.tx_reseal_allowed now st1 then
    (qr.snd, Miner.update_sealing cfg chain now st1)
  else (qr.snd, st1)

/-- `Miner::import_own_transaction`: admit under origin Local; on success,
when `reseal_on_own_tx` is set and the rate limit has passed, either update
sealing directly (engine seals internally) or lazily prepare work and update
sealing only when a candidate block already existed. -/
def Miner.import_own_transaction (cfg : MinerCfg) (chain : Chain)
    (now : Nat) (tx : Tx) (condition : Option Condition) (st : MinerState) :
    Except TxError ImportResult × MinerState :=
  let qr := Miner.add_transactions_to_queue cfg chain [tx]
    TransactionOrigin.Local condition st.tx_queue
  let imported := qr.snd.getLastD (Except.error TxError.NotAllowed)
  let st1 := { st with tx_queue := qr.fst }
  if exceptOk imported && cfg.options.reseal_on_own_tx
      && Miner.tx_reseal_allowed now st1 then
    if cfg.engine.seals_internally.getD false then
      (imported, Miner.update_sealing cfg chain now st1)
    else
      let pw := Miner.prepare_work_sealing cfg chain st1
      if !pw.fst then (imported, Miner.update_sealing cfg chain now pw.snd)
      else (imported, pw.snd)
  else (imported, st1)

/-- `Miner::update_gas_limit`: refresh the queue's block gas limit from the
best header; with `GasLimit::Auto` also set the total queue gas to 20 times
the block gas limit. -/
def Miner.update_gas_limit (cfg : MinerCfg) (chain : Chain) (st : MinerState) :
    MinerState :=
  let gas_limit := chain.best_block_header.gasLimit
  let q1 := st.tx_queue.set_gas_limit gas_limit
  let q2 :=
    match cfg.options.tx_queue_gas_limit with
    | GasLimitConf.Auto => q1.set_total_gas_limit (gas_limit * 20)
    | _ => q1
  { st with tx_queue := q2 }

/-- `Miner::recalibrate_minimal_gas_price`: a fixed pricer publishes its
price at once; the calibrated pricer's asynchronous external fetch is
fire-and-forget and never touches the queue synchronously. -/
def Miner.recalibrate_minimal_gas_price (st : MinerState) : MinerState :=
  match st.gas_pricer with
  | GasPricerM.FixedPrice wei =>
      { st with tx_queue := st.tx_queue.set_minimal_gas_price wei }
  | GasPricerM.Calibrated => st

/-- One reinjection step of `chain_new_blocks`: every transaction of one
retracted block is offered to the queue with default origin RetractedBlock. -/
def Miner.reinject_block_step (cfg : MinerCfg) (chain : Chain)
    (s : MinerState) (h : Nat) : MinerState :=
  let txs := chain.block_transactions h
  let qr := Miner.add_transactions_to_queue cfg chain txs
    TransactionOrigin.RetractedBlock none s.tx_queue
  { s with tx_queue := qr.fst }

/-- The unconditional phase of `Miner::chain_new_blocks`: refresh the gas
limit, recalibrate the gas price, re-inject every transaction of every
retracted block, and age the queue against the chain's (nonce, balance)
snapshots; `imported` and `invalid` are ignored. -/
def Miner.chain_new_blocks_pre (cfg : MinerCfg) (chain : Chain)
    (retracted : List Nat) (st : MinerState) : MinerState :=
  let st1 := Miner.update_gas_limit cfg chain st
  let st2 := Miner.recalibrate_minimal_gas_price st1
  let st3 := retracted.foldl (Miner.reinject_block_step cfg chain) st2
  let fetch_account := fun a => (chain.latest_nonce a, chain.latest_balance a)
  let time := chain.best_block_number
  { st3 with tx_queue := st3.tx_queue.remove_old fetch_account time }

/-- The trigger phase of `chain_new_blocks`: update sealing when any block
was enacted. -/
def Miner.chain_new_blocks (cfg : MinerCfg) (chain : Chain) (now : Nat)
    (_imported _invalid : List Nat) (enacted retracted : List Nat)
    (st : MinerState) : MinerState :=
  let st4 := Miner.chain_new_blocks_pre cfg chain retracted st
  if enacted.length > 0 then Miner.update_sealing cfg chain now st4 else st4

/-- `Miner::ready_transactions`. -/
def Miner.ready_transactions (cfg : MinerCfg) (st : MinerState)
    (best_block : Nat) (best_block_timestamp : Nat) : List Tx :=
  match cfg.options.pending_set with
  | PendingSet.AlwaysQueue => st.tx_queue.pending_txs best_block best_block_timestamp
  | PendingSet.SealingOrElseQueue =>
      Miner.from_pending_block st best_block
        (fun _ => st.tx_queue.pending_txs best_block best_block_timestamp)
        (fun sealing => sealing.transactions)
  | PendingSet.AlwaysSealing =>
      Miner.from_pending_block st best_block
        (fun _ => [])
        (fun sealing => sealing.transactions)

/-- `Miner::pending_transactions_hashes`. -/
def Miner.pending_transactions_hashes (cfg : MinerCfg) (st : MinerState)
    (best_block : Nat) : List Nat :=
  match cfg.options.pending_set with
  | PendingSet.AlwaysQueue => st.tx_queue.pending_hashes
  | PendingSet.SealingOrElseQueue =>
      Miner.from_pending_block st best_block
        (fun _ => st.tx_queue.pending_hashes)
        (fun sealing => sealing.transactions.map Tx.hash)
  | PendingSet.AlwaysSealing =>
      Miner.from_pending_block st best_block
        (fun _ => [])
        (fun sealing => sealing.transactions.map Tx.hash)

/-- `Miner::transaction` (lookup by hash). -/
def Miner.transaction (cfg : MinerCfg) (st : MinerState)
    (best_block : Nat) (h : Nat) : Option Tx :=
  match cfg.options.pending_set with
  | PendingSet.AlwaysQueue => st.tx_queue.find_tx h
  | PendingSet.SealingOrElseQueue =>
      Miner.from_pending_block st best_block
        (fun _ => st.tx_queue.find_tx h)
        (fun sealing => sealing.transactions.find? (fun t => t.hash == h))
  | PendingSet.AlwaysSealing =>
      Miner.from_pending_block st best_block
        (fun _ => none)
        (fun sealing => sealing.transactions.find? (fun t => t.hash == h))

/-- The rich receipt `pending_receipt` assembles. -/
structure RichReceipt where
  transaction_hash : Nat
  transaction_index : Nat
  cumulative_gas_used : Nat
  gas_used : Nat
  state_root : Nat
deriving DecidableEq, Repr

/-- `Miner::pending_receipt`. -/
def Miner.pending_receipt (st : MinerState) (best_block : Nat)
    (h : Nat) : Option RichReceipt :=
  Miner.from_pending_block st best_block
    (fun _ => none)
    (fun pending =>
      (pending.transactions.findIdx? (fun t => t.hash == h)).map
        (fun index =>
          let prev_gas := if index = 0 then 0
            else ((pending.receipts.get? (index - 1)).getD ⟨0, 0⟩).gasUsed
          let receipt := (pending.receipts.get? index).getD ⟨0, 0⟩
          { transaction_hash := h
            transaction_index := index
            cumulative_gas_used := receipt.gasUsed
            gas_used := receipt.gasUsed - prev_gas
            state_root := receipt.stateRoot }))

/-- `Miner::pending_receipts`. -/
def Miner.pending_receipts (st : MinerState) (best_block : Nat) :
    List (Nat × ReceiptM) :=
  Miner.from_pending_block st best_block
    (fun _ => [])
    (fun pending => (pending.transactions.map Tx.hash).zip pending.receipts)

/-- Seal-submission errors. -/
inductive SubmitError
  | PowHashInvalid
  | PowInvalid
deriving DecidableEq, Repr

/-- `Miner::submit_seal`: look the candidate up by hash (Clone when
`enable_resubmission`, Take otherwise); on a match ask the engine to finalize
the seal and import the sealed block, else fail with PowHashInvalid; an
engine rejection fails with PowInvalid. Importing the sealed block is
journalled in `imported_blocks` (the chain import itself is the chain
client's, an external collaborator). -/
def Miner.submit_seal (cfg : MinerCfg) (block_hash : Nat) (s : List Nat)
    (st : MinerState) : Except SubmitError Unit × MinerState :=
  let act := if cfg.options.enable_resubmission then GetAction.Clone
    else GetAction.Take
  let gu := st.sealing_work.queue.getUsedIf act
    (fun b => b.header.hash == block_hash)
  let st1 := { st with sealing_work := { st.sealing_work with queue := gu.snd } }
  match gu.fst with
  | some b =>
      if cfg.engine.try_seal b s then
        (Except.ok (),
         { st1 with imported_blocks := st1.imported_blocks ++ [b.header.hash] })
      else (Except.error SubmitError.PowInvalid, st1)
  | none => (Except.error SubmitError.PowHashInvalid, st1)

/-- `Miner::set_author`: with an internally sealing engine also enables
sealing. -/
def Miner.set_author (cfg : MinerCfg) (a : Nat) (st : MinerState) :
    MinerState :=
  let st1 :=
    if cfg.engine.seals_internally.isSome then
      { st with sealing_work := { st.sealing_work with enabled := true } }
    else st
  { st1 with author := a }

/-- `Miner::set_engine_signer`: with an internally sealing engine and an
account provider, signs (account machinery is external and modelled as
succeeding), enables sealing and sets the author. -/
def Miner.set_engine_signer (cfg : MinerCfg) (a : Nat) (st : MinerState) :
    MinerState :=
  if cfg.engine.seals_internally.isSome then
    match cfg.accounts with
    | some _ =>
        { st with sealing_work := { st.sealing_work with enabled := true },
                  author := a }
    | none => st
  else st

/-- `Miner::map_sealing_work`: ensure a candidate exists, mark the most
recent one in use and hand it out. -/
def Miner.map_sealing_work (cfg : MinerCfg) (chain : Chain) (st : MinerState) :
    Option ClosedBlock × MinerState :=
  let pw := Miner.prepare_work_sealing cfg chain st
  let ur := pw.snd.sealing_work.queue.useLastRef
  (ur.fst, { pw.snd with sealing_work := { pw.snd.sealing_work with queue := ur.snd } })

/-! ### Concrete fixtures used by counterexamples and witnesses -/

/-- A header fixture (difficulty and gas limit zero). -/
def hdr (n : Nat) (h parent : Nat) : Header :=
  ⟨n, h, parent, 0, 0⟩

/-- A closed-block fixture whose state lookups all answer `bal`. -/
def mkBlock (n : Nat) (h parent : Nat) (bal : Nat) (txs : List Tx) :
    ClosedBlock where
  header := hdr n h parent
  transactions := txs
  receipts := txs.map (fun _ => ⟨0, 0⟩)
  stateBalance := fun _ => bal
  stateNonce := fun _ => bal
  stateStorage := fun _ _ => bal
  stateCode := fun _ => none

/-- A chain fixture whose latest-state lookups all answer `bal`. -/
def mkChain (best : Header) (bal : Nat) : Chain where
  best_block_header := best
  best_block_timestamp := 0
  latest_balance := fun _ => bal
  latest_nonce := fun _ => bal
  latest_storage := fun _ _ => bal
  latest_code := fun _ => some [bal]
  tx_in_chain := fun _ => false
  block_transactions := fun _ => []
  prepare_open_block := fun _ _ _ => ⟨⟨best.number + 1, 1000, best.hash, 0, 0⟩, []⟩
  push_transaction := fun b _ => Except.ok b
  push_took := fun _ => 0
  close_block := fun b =>
    ⟨b.header, b.transactions, b.transactions.map (fun _ => ⟨0, 0⟩),
     fun _ => 0, fun _ => 0, fun _ _ => 0, fun _ => none⟩
  reopen_block := fun b => ⟨b.header, b.transactions⟩
  import_sealed_ok := fun _ => true

/-- A miner-state fixture over a given sealing-work history. -/
def mkState (hist : List (ClosedBlock × Bool)) (enabled : Bool) : MinerState where
  tx_queue := TxQueue.empty
  sealing_work := { queue := { maxSize := 10, history := hist }, enabled := enabled }
  next_allowed_reseal := 0
  next_mandatory_reseal := 0
  sealing_block_last_request := 0
  author := 0
  extra_data := []
  gas_range_target := (0, 0)
  notifiers := []
  gas_pricer := GasPricerM.FixedPrice 0
  imported_blocks := []
  notified_work := []
  broadcast_blocks := []

/-- An options fixture mirroring the test miner's configuration. -/
def mkOptions : MinerOptions where
  new_work_notify := []
  force_sealing := false
  reseal_on_external_tx := false
  reseal_on_own_tx := true
  reseal_min_period := 2
  reseal_max_period := 120
  pending_set := PendingSet.AlwaysQueue
  work_queue_size := 5
  enable_resubmission := true
  tx_queue_gas_limit := GasLimitConf.NoLimit
  tx_queue_banning := Banning.Disabled

/-- An engine fixture that never seals internally and accepts everything. -/
def mkEngine : Engine where
  seals_internally := none
  params := ⟨1000000, 0⟩
  verify_transaction := fun _ _ => none
  try_seal := fun _ _ => true
  generate_seal := fun _ => SealOutcome.NoSeal

/-- A configuration fixture without managed accounts. -/
def mkCfg : MinerCfg := ⟨mkOptions, mkEngine, none⟩

/-! ### C1 -/

/-- C1 counterexample: with the candidate block's header number equal to the
caller's latest block number (5 = 5) and differing candidate/chain balances
(9 vs 7), the balance query answers from the chain (7), not from the
candidate state as the claim's "greater than or equal to" dispatch would
require. -/
theorem C1_counterexample :
    Miner.balance (mkState [(mkBlock 5 100 99 9 [], false)] true)
      (mkChain (hdr 5 50 49) 7) 0 = some 7
    ∧ (mkState [(mkBlock 5 100 99 9 [], false)] true).sealing_work.queue.peekLast?
        = some (mkBlock 5 100 99 9 [])
    ∧ (mkBlock 5 100 99 9 []).header.number ≥ (mkChain (hdr 5 50 49) 7).best_block_number
    ∧ (mkBlock 5 100 99 9 []).stateBalance 0 = 9
    ∧ (9 : Nat) ≠ 7 := by
  refine ⟨rfl, rfl, by decide, rfl, by decide⟩

/-- C1 (amended): every pending-state query (balance, nonce, storage, code)
answers from the most recent closed candidate block exactly when such a block
is present and its header number is strictly greater than the caller's latest
block number, and from the chain's latest state otherwise. -/
theorem C1_pending_state_query_dispatch (st : MinerState) (chain : Chain)
    (a : Nat) (pos : Nat) :
    (Miner.balance st chain a =
      match st.sealing_work.queue.peekLast? with
      | some b =>
          if b.header.number > chain.best_block_number then some (b.stateBalance a)
          else some (chain.latest_balance a)
      | none => some (chain.latest_balance a))
    ∧ (Miner.nonce st chain a =
      match st.sealing_work.queue.peekLast? with
      | some b =>
          if b.header.number > chain.best_block_number then some (b.stateNonce a)
          else some (chain.latest_nonce a)
      | none => some (chain.latest_nonce a))
    ∧ (Miner.storage_at st chain a pos =
      match st.sealing_work.queue.peekLast? with
      | some b =>
          if b.header.number > chain.best_block_number then some (b.stateStorage a pos)
          else some (chain.latest_storage a pos)
      | none => some (chain.latest_storage a pos))
    ∧ (Miner.code st chain a =
      match st.sealing_work.queue.peekLast? with
      | some b =>
          if b.header.number > chain.best_block_number then some (b.stateCode a)
          else some (chain.latest_code a)
      | none => some (chain.latest_code a)) := by
  unfold Miner.balance Miner.nonce Miner.storage_at Miner.code
    Miner.from_pending_block
  rcases st.sealing_work.queue.peekLast? with _ | b
  all_goals exact ⟨rfl, rfl, rfl, rfl⟩

/-! ### C2 -/

/-- C2: `requires_reseal(best_number)` returns true iff sealing is enabled
and (the engine can seal internally, or force-sealing is configured, or
notifiers are present, or the queue has local pending transactions, or
`best_number − sealing_block_last_request ≤ SEALING_TIMEOUT_IN_BLOCKS`);
when sealing was enabled but none of these hold it disables sealing and
resets the sealing-work queue, and on every true return it sets
`next_allowed_reseal` to now plus `reseal_min_period`. -/
theorem C2_requires_reseal_contract (cfg : MinerCfg) (now : Nat)
    (best_block : Nat) (st : MinerState) :
    ((Miner.requires_reseal cfg now best_block st).fst
      = (st.sealing_work.enabled
         && (cfg.engine.seals_internally.isSome
             || cfg.options.force_sealing
             || !st.notifiers.isEmpty
             || st.tx_queue.has_local_pending
             || decide (best_block - st.sealing_block_last_request
                          ≤ SEALING_TIMEOUT_IN_BLOCKS))))
    ∧ ((Miner.requires_reseal cfg now best_block st).snd
      = if (Miner.requires_reseal cfg now best_block st).fst
        then { st with next_allowed_reseal := now + cfg.options.reseal_min_period }
        else if st.sealing_work.enabled
        then { st with sealing_work :=
               { enabled := false, queue := st.sealing_work.queue.reset } }
        else st) := by
  unfold Miner.requires_reseal Miner.forced_sealing
  cases hen : st.sealing_work.enabled
  · simp
  · by_cases hw : best_block - st.sealing_block_last_request
        ≤ SEALING_TIMEOUT_IN_BLOCKS
    · have e1 : decide (best_block - st.sealing_block_last_request
          ≤ SEALING_TIMEOUT_IN_BLOCKS) = true := decide_eq_true hw
      have e2 : decide (best_block - st.sealing_block_last_request
          > SEALING_TIMEOUT_IN_BLOCKS) = false :=
        decide_eq_false (by simp only [SEALING_TIMEOUT_IN_BLOCKS] at hw ⊢; omega)
      simp [e1, e2]
      simp only [SEALING_TIMEOUT_IN_BLOCKS] at hw ⊢
      omega
    · have e1 : decide (best_block - st.sealing_block_last_request
          ≤ SEALING_TIMEOUT_IN_BLOCKS) = false := decide_eq_false hw
      have e2 : decide (best_block - st.sealing_block_last_request
          > SEALING_TIMEOUT_IN_BLOCKS) = true :=
        decide_eq_true (by simp only [SEALING_TIMEOUT_IN_BLOCKS] at hw ⊢; omega)
      have e3 : decide (best_block > st.sealing_block_last_request) = true :=
        decide_eq_true (by simp only [SEALING_TIMEOUT_IN_BLOCKS] at hw ⊢; omega)
      simp only [e1, e2, e3]
      cases hf : cfg.options.force_sealing <;>
        cases hne : st.notifiers.isEmpty <;>
          cases hl : st.tx_queue.has_local_pending <;>
            rcases hsi : cfg.engine.seals_internally with _ | b <;>
              simp_all

/-! ### C8 -/

/-- C8: for every pending-set policy, when a candidate block exists whose
header number is not greater than the caller's best block number, every
listing endpoint (ready_transactions, pending_transactions_hashes,
transaction, pending_receipt, pending_receipts) answers from its chain/queue
fallback, never from the candidate; candidate data is used only when the
candidate's header number strictly exceeds the caller's best block number. -/
theorem C8_stale_candidate_listings (cfg : MinerCfg) (st : MinerState)
    (best_block ts h : Nat) (b : ClosedBlock)
    (hpeek : st.sealing_work.queue.peekLast? = some b)
    (hle : b.header.number ≤ best_block) :
    Miner.ready_transactions cfg st best_block ts
      = (match cfg.options.pending_set with
         | PendingSet.AlwaysQueue => st.tx_queue.pending_txs best_block ts
         | PendingSet.SealingOrElseQueue => st.tx_queue.pending_txs best_block ts
         | PendingSet.AlwaysSealing => [])
    ∧ Miner.pending_transactions_hashes cfg st best_block
      = (match cfg.options.pending_set with
         | PendingSet.AlwaysQueue => st.tx_queue.pending_hashes
         | PendingSet.SealingOrElseQueue => st.tx_queue.pending_hashes
         | PendingSet.AlwaysSealing => [])
    ∧ Miner.transaction cfg st best_block h
      = (match cfg.options.pending_set with
         | PendingSet.AlwaysQueue => st.tx_queue.find_tx h
         | PendingSet.SealingOrElseQueue => st.tx_queue.find_tx h
         | PendingSet.AlwaysSealing => none)
    ∧ Miner.pending_receipt st best_block h = none
    ∧ Miner.pending_receipts st best_block = [] := by
  have hnb : ¬ b.header.number > best_block := Nat.not_lt.mpr hle
  cases hps : cfg.options.pending_set
  all_goals
    simp [Miner.ready_transactions, Miner.pending_transactions_hashes,
      Miner.transaction, Miner.pending_receipt, Miner.pending_receipts,
      Miner.from_pending_block, hpeek, hnb, hps]

/-- C8 witness: a concrete miner whose only candidate has header number 5 and
a caller at best block 5 sees no pending receipts. -/
theorem C8_stale_candidate_listings_witness :
    Miner.pending_receipts (mkState [(mkBlock 5 100 99 9 [], false)] true) 5
      = [] :=
  (C8_stale_candidate_listings mkCfg (mkState [(mkBlock 5 100 99 9 [], false)] true)
    5 0 0 (mkBlock 5 100 99 9 []) rfl (by decide)).2.2.2.2

/-! ### C3 -/

/-- After erasing the unique match of `p`, no match of `p` remains. -/
lemma find?_eraseP_of_countP_le_one {α : Type} (p : α → Bool) (l : List α)
    (hc : l.countP p ≤ 1) : (l.eraseP p).find? p = none := by
  induction l with
  | nil => rfl
  | cons a l ih =>
      cases hpa : p a
      · have hna : ¬ p a := by simp [hpa]
        rw [List.eraseP_cons_of_neg hna, List.find?_cons_of_neg _ hna]
        exact ih (by rwa [List.countP_cons_of_neg _ _ hna] at hc)
      · rw [List.eraseP_cons_of_pos hpa]
        rw [List.countP_cons_of_pos _ _ hpa] at hc
        exact List.find?_eq_none.mpr
          (fun x hx hpx => (List.countP_eq_zero.mp (by omega) x hx) hpx)

/-- C3: `submit_seal` fails with PowHashInvalid when no candidate in the
sealing-work queue has the submitted hash; on a matched candidate it fails
with PowInvalid when the engine rejects the seal and otherwise imports the
sealed block; with `enable_resubmission` the lookup clones, so a second
successful submission against the same hash also succeeds, and without it
the lookup takes the candidate out, so a second submission fails with
PowHashInvalid. -/
theorem C3_submit_seal_contract (cfg : MinerCfg) (bh : Nat) (s : List Nat)
    (st : MinerState) :
    ((∀ x ∈ st.sealing_work.queue.history, ¬ x.fst.header.hash = bh) →
      (Miner.submit_seal cfg bh s st).fst
        = Except.error SubmitError.PowHashInvalid)
    ∧ (∀ b, st.sealing_work.queue.history.find?
          (fun ab => ab.fst.header.hash == bh) = some b →
        ((cfg.engine.try_seal b.fst s = false →
            (Miner.submit_seal cfg bh s st).fst
              = Except.error SubmitError.PowInvalid)
         ∧ (cfg.engine.try_seal b.fst s = true →
            (Miner.submit_seal cfg bh s st).fst = Except.ok ()
            ∧ (Miner.submit_seal cfg bh s st).snd.imported_blocks
                = st.imported_blocks ++ [b.fst.header.hash])
         ∧ (cfg.options.enable_resubmission = true →
            cfg.engine.try_seal b.fst s = true →
            (Miner.submit_seal cfg bh s
                (Miner.submit_seal cfg bh s st).snd).fst = Except.ok ())))
    ∧ (cfg.options.enable_resubmission = false →
        st.sealing_work.queue.history.countP
          (fun ab => ab.fst.header.hash == bh) = 1 →
        (Miner.submit_seal cfg bh s
            (Miner.submit_seal cfg bh s st).snd).fst
          = Except.error SubmitError.PowHashInvalid) := by
  refine ⟨?_, ?_, ?_⟩
  · intro hnone
    have hfind : st.sealing_work.queue.history.find?
        (fun ab => ab.fst.header.hash == bh) = none :=
      List.find?_eq_none.mpr (fun x hx => by
        simpa using hnone x hx)
    simp [Miner.submit_seal, UsingQueue.getUsedIf, hfind]
  · intro b hfind
    refine ⟨?_, ?_, ?_⟩
    · intro hrej
      cases hres : cfg.options.enable_resubmission
      all_goals simp [Miner.submit_seal, UsingQueue.getUsedIf, hfind, hres, hrej]
    · intro hacc
      cases hres : cfg.options.enable_resubmission
      all_goals simp [Miner.submit_seal, UsingQueue.getUsedIf, hfind, hres, hacc]
    · intro hres hacc
      simp [Miner.submit_seal, UsingQueue.getUsedIf, hfind, hres, hacc]
  · intro hres hcount
    have hfind : ∃ b, st.sealing_work.queue.history.find?
        (fun ab => ab.fst.header.hash == bh) = some b := by
      have hpos : 0 < st.sealing_work.queue.history.countP
          (fun ab => ab.fst.header.hash == bh) := by omega
      rcases List.countP_pos_iff.mp hpos with ⟨x, hx, hpx⟩
      exact Option.isSome_iff_exists.mp (List.find?_isSome.mpr ⟨x, hx, hpx⟩)
    rcases hfind with ⟨b, hfind⟩
    have hnone : (st.sealing_work.queue.history.eraseP
        (fun ab => ab.fst.header.hash == bh)).find?
        (fun ab => ab.fst.header.hash == bh) = none :=
      find?_eraseP_of_countP_le_one _ _ (by omega)
    cases hacc : cfg.engine.try_seal b.fst s
    all_goals simp [Miner.submit_seal, UsingQueue.getUsedIf, hfind, hres,
      hacc, hnone]

/-! ### C6 -/

/-- Every admission step appends exactly one result. -/
lemma add_tx_step_snd_length (cfg : MinerCfg) (chain : Chain)
    (d : TransactionOrigin) (c : Option Condition)
    (acc : TxQueue × List (Except TxError ImportResult)) (tx : Tx) :
    (Miner.add_tx_step cfg chain d c acc tx).snd.length = acc.snd.length + 1 := by
  unfold Miner.add_tx_step
  repeat' split
  all_goals try simp
  all_goals
    (cases Miner.effective_origin cfg tx d <;>
      simp [TxQueue.add, TxQueue.add_with_banlist])

/-- Folding the admission step over a batch produces one result per
transaction. -/
lemma add_tx_fold_snd_length (cfg : MinerCfg) (chain : Chain)
    (d : TransactionOrigin) (c : Option Condition) (txs : List Tx) :
    ∀ acc : TxQueue × List (Except TxError ImportResult),
      (txs.foldl (Miner.add_tx_step cfg chain d c) acc).snd.length
        = acc.snd.length + txs.length := by
  induction txs with
  | nil => intro acc; simp
  | cons tx rest ih =>
      intro acc
      rw [List.foldl_cons, ih, add_tx_step_snd_length]
      simp only [List.length_cons]
      omega

/-- `add_transactions_to_queue` returns one result per submitted
transaction. -/
lemma attq_results_length (cfg : MinerCfg) (chain : Chain) (txs : List Tx)
    (d : TransactionOrigin) (c : Option Condition) (q0 : TxQueue) :
    (Miner.add_transactions_to_queue cfg chain txs d c q0).snd.length
      = txs.length := by
  unfold Miner.add_transactions_to_queue
  rw [add_tx_fold_snd_length]
  simp

/-- Two lists of equal length are equally empty. -/
lemma isEmpty_eq_of_length_eq {α β : Type} (l1 : List α) (l2 : List β)
    (h : l1.length = l2.length) : l1.isEmpty = l2.isEmpty := by
  cases l1 <;> cases l2 <;> simp_all

/-- C6: `import_external_transactions` triggers `update_sealing` exactly when
the submitted list is non-empty, `reseal_on_external_tx` is enabled and the
reseal rate limit has passed — the trigger tests only the result list's
non-emptiness (one result per submitted transaction), so it fires even when
every per-transaction result is an error. -/
theorem C6_import_external_reseal_trigger (cfg : MinerCfg) (chain : Chain)
    (now : Nat) (txs : List Tx) (st : MinerState) :
    (Miner.import_external_transactions cfg chain now txs st).fst.length
      = txs.length
    ∧ (Miner.import_external_transactions cfg chain now txs st).snd
      = (if !txs.isEmpty && cfg.options.reseal_on_external_tx
            && Miner.tx_reseal_allowed now st
         then Miner.update_sealing cfg chain now
           { st with tx_queue := (Miner.add_transactions_to_queue cfg chain txs
               TransactionOrigin.External none st.tx_queue).fst }
         else { st with tx_queue := (Miner.add_transactions_to_queue cfg chain txs
               TransactionOrigin.External none st.tx_queue).fst }) := by
  have hlen := attq_results_length cfg chain txs TransactionOrigin.External
    none st.tx_queue
  constructor
  · simp only [Miner.import_external_transactions]
    split
    all_goals exact hlen
  · simp only [Miner.import_external_transactions]
    rw [isEmpty_eq_of_length_eq _ _ hlen]
    simp only [Miner.tx_reseal_allowed]
    split
    all_goals rfl

/-! ### C5 -/

/-- C5: after a successful own-transaction import with `reseal_on_own_tx`
enabled and the rate limit passed, an engine with `seals_internally() =
Some(true)` gets `update_sealing` directly (no work preparation); any other
engine answer first runs `prepare_work_sealing`, and `update_sealing` is
additionally run exactly when `prepare_work_sealing` reported that a
candidate block already existed (returned false). Otherwise the state is
left at the post-admission state. -/
theorem C5_import_own_reseal_paths (cfg : MinerCfg) (chain : Chain)
    (now : Nat) (tx : Tx) (cond : Option Condition) (st : MinerState) :
    (Miner.import_own_transaction cfg chain now tx cond st).fst
      = (Miner.add_transactions_to_queue cfg chain [tx]
          TransactionOrigin.Local cond st.tx_queue).snd.getLastD
          (Except.error TxError.NotAllowed)
    ∧ (Miner.import_own_transaction cfg chain now tx cond st).snd
      = (if exceptOk ((Miner.add_transactions_to_queue cfg chain [tx]
            TransactionOrigin.Local cond st.tx_queue).snd.getLastD
            (Except.error TxError.NotAllowed))
           && cfg.options.reseal_on_own_tx
           && Miner.tx_reseal_allowed now st
         then
           match cfg.engine.seals_internally with
           | some true =>
               Miner.update_sealing cfg chain now
                 { st with tx_queue := (Miner.add_transactions_to_queue cfg chain
                     [tx] TransactionOrigin.Local cond st.tx_queue).fst }
           | some false =>
               if !(Miner.prepare_work_sealing cfg chain
                     { st with tx_queue := (Miner.add_transactions_to_queue cfg
                         chain [tx] TransactionOrigin.Local cond
                         st.tx_queue).fst }).fst
               then Miner.update_sealing cfg chain now
                 (Miner.prepare_work_sealing cfg chain
                   { st with tx_queue := (Miner.add_transactions_to_queue cfg
                       chain [tx] TransactionOrigin.Local cond
                       st.tx_queue).fst }).snd
               else (Miner.prepare_work_sealing cfg chain
                 { st with tx_queue := (Miner.add_transactions_to_queue cfg
                     chain [tx] TransactionOrigin.Local cond
                     st.tx_queue).fst }).snd
           | none =>
               if !(Miner.prepare_work_sealing cfg chain
                     { st with tx_queue := (Miner.add_transactions_to_queue cfg
                         chain [tx] TransactionOrigin.Local cond
                         st.tx_queue).fst }).fst
               then Miner.update_sealing cfg chain now
                 (Miner.prepare_work_sealing cfg chain
                   { st with tx_queue := (Miner.add_transactions_to_queue cfg
                       chain [tx] TransactionOrigin.Local cond
                       st.tx_queue).fst }).snd
               else (Miner.prepare_work_sealing cfg chain
                 { st with tx_queue := (Miner.add_transactions_to_queue cfg
                     chain [tx] TransactionOrigin.Local cond
                     st.tx_queue).fst }).snd
         else { st with tx_queue := (Miner.add_transactions_to_queue cfg chain
             [tx] TransactionOrigin.Local cond st.tx_queue).fst }) := by
  rcases hsi : cfg.engine.seals_internally with _ | b
  case none =>
    constructor
    · simp only [Miner.import_own_transaction, hsi]
      repeat' split
      all_goals rfl
    · simp only [Miner.import_own_transaction, Miner.tx_reseal_allowed, hsi,
        Option.getD_none, Bool.false_eq_true, if_false]
      repeat' split
      all_goals rfl
  case some =>
    cases b
    · constructor
      · simp only [Miner.import_own_transaction, hsi]
        repeat' split
        all_goals rfl
      · simp only [Miner.import_own_transaction, Miner.tx_reseal_allowed, hsi,
          Option.getD_some, Bool.false_eq_true, if_false]
        repeat' split
        all_goals rfl
    · constructor
      · simp only [Miner.import_own_transaction, hsi]
        repeat' split
        all_goals rfl
      · simp only [Miner.import_own_transaction, Miner.tx_reseal_allowed, hsi,
          Option.getD_some, if_true]
        repeat' split
        all_goals rfl

/-! ### C10 -/

/-- Queue entries only grow across a single admission step. -/
lemma add_tx_step_entries_mono (cfg : MinerCfg) (chain : Chain)
    (d : TransactionOrigin) (c : Option Condition)
    (acc : TxQueue × List (Except TxError ImportResult)) (tx : Tx) (e : TQEntry)
    (he : e ∈ acc.fst.entries) :
    e ∈ (Miner.add_tx_step cfg chain d c acc tx).fst.entries := by
  unfold Miner.add_tx_step
  repeat' split
  all_goals try simp [TxQueue.add, TxQueue.add_with_banlist, he]
  all_goals
    (cases Miner.effective_origin cfg tx d <;>
      simp [TxQueue.add, TxQueue.add_with_banlist, he])

/-- Queue entries only grow across a whole batch admission. -/
lemma add_tx_fold_entries_mono (cfg : MinerCfg) (chain : Chain)
    (d : TransactionOrigin) (c : Option Condition) (txs : List Tx) :
    ∀ (acc : TxQueue × List (Except TxError ImportResult)) (e : TQEntry),
      e ∈ acc.fst.entries →
      e ∈ (txs.foldl (Miner.add_tx_step cfg chain d c) acc).fst.entries := by
  induction txs with
  | nil => intro acc e he; simpa using he
  | cons t rest ih =>
      intro acc e he
      rw [List.foldl_cons]
      exact ih _ e (add_tx_step_entries_mono cfg chain d c acc t e he)

/-- A verified, not-yet-mined transaction whose sender is a managed account
is admitted by the step with origin Local through the plain add path. -/
lemma add_tx_step_adds_local (cfg : MinerCfg) (chain : Chain)
    (d : TransactionOrigin) (c : Option Condition)
    (acc : TxQueue × List (Except TxError ImportResult)) (tx : Tx)
    (accts : List Nat) (hacc : cfg.accounts = some accts)
    (hs : tx.sender ∈ accts)
    (hchain : chain.tx_in_chain tx.hash = false)
    (hver : cfg.engine.verify_transaction tx chain.best_block_header = none) :
    (⟨tx, TransactionOrigin.Local, false, chain.best_block_number, c⟩ : TQEntry)
      ∈ (Miner.add_tx_step cfg chain d c acc tx).fst.entries := by
  unfold Miner.add_tx_step Miner.effective_origin
  simp [hchain, hver, hacc, hs, TxQueue.add]

/-- Batch version of `add_tx_step_adds_local`. -/
lemma add_tx_fold_adds_local (cfg : MinerCfg) (chain : Chain)
    (d : TransactionOrigin) (c : Option Condition) (txs : List Tx)
    (accts : List Nat) (hacc : cfg.accounts = some accts) :
    ∀ (acc : TxQueue × List (Except TxError ImportResult)) (tx : Tx),
      tx ∈ txs → tx.sender ∈ accts →
      chain.tx_in_chain tx.hash = false →
      cfg.engine.verify_transaction tx chain.best_block_header = none →
      (⟨tx, TransactionOrigin.Local, false, chain.best_block_number, c⟩ : TQEntry)
        ∈ (txs.foldl (Miner.add_tx_step cfg chain d c) acc).fst.entries := by
  induction txs with
  | nil => intro acc tx hmem; exact absurd hmem (List.not_mem_nil _)
  | cons t rest ih =>
      intro acc tx hmem hs hchain hver
      rw [List.foldl_cons]
      rcases List.mem_cons.mp hmem with rfl | hmem2
      · exact add_tx_fold_entries_mono cfg chain d c rest _ _
          (add_tx_step_adds_local cfg chain d c acc tx accts hacc hs hchain hver)
      · exact ih _ tx hmem2 hs hchain hver

/-- C10: a transaction submitted through the external entry point whose
recovered sender is a managed account is admitted with origin Local via the
plain add path (`via_banlist = false`), not with the External origin the
entry point implies; with the external reseal trigger off, the entry is
visible in the state `import_external_transactions` returns. -/
theorem C10_managed_sender_external_import (cfg : MinerCfg) (chain : Chain)
    (now : Nat) (txs : List Tx) (st : MinerState) (accts : List Nat) (tx : Tx)
    (hacc : cfg.accounts = some accts)
    (hmem : tx ∈ txs)
    (hs : tx.sender ∈ accts)
    (hchain : chain.tx_in_chain tx.hash = false)
    (hver : cfg.engine.verify_transaction tx chain.best_block_header = none)
    (hres : cfg.options.reseal_on_external_tx = false) :
    (⟨tx, TransactionOrigin.Local, false, chain.best_block_number, none⟩ : TQEntry)
      ∈ (Miner.add_transactions_to_queue cfg chain txs
          TransactionOrigin.External none st.tx_queue).fst.entries
    ∧ (⟨tx, TransactionOrigin.Local, false, chain.best_block_number, none⟩ : TQEntry)
      ∈ (Miner.import_external_transactions cfg chain now txs st).snd.tx_queue.entries := by
  have h1 : (⟨tx, TransactionOrigin.Local, false, chain.best_block_number, none⟩ : TQEntry)
      ∈ (Miner.add_transactions_to_queue cfg chain txs
          TransactionOrigin.External none st.tx_queue).fst.entries := by
    unfold Miner.add_transactions_to_queue
    exact add_tx_fold_adds_local cfg chain TransactionOrigin.External none txs
      accts hacc _ tx hmem hs hchain hver
  refine ⟨h1, ?_⟩
  simp only [Miner.import_external_transactions, hres, Bool.and_false,
    Bool.false_and, Bool.false_eq_true, if_false]
  exact h1

/-- C10 witness: a miner managing account 7 admits an externally submitted
transaction from sender 7 as a Local entry outside the banlist path. -/
theorem C10_managed_sender_external_import_witness :
    (⟨⟨1, 7, 0⟩, TransactionOrigin.Local, false,
        (mkChain (hdr 0 50 49) 0).best_block_number, none⟩ : TQEntry)
      ∈ (Miner.add_transactions_to_queue ⟨mkOptions, mkEngine, some [7]⟩
          (mkChain (hdr 0 50 49) 0) [⟨1, 7, 0⟩] TransactionOrigin.External none
          (mkState [] true).tx_queue).fst.entries :=
  (C10_managed_sender_external_import ⟨mkOptions, mkEngine, some [7]⟩
    (mkChain (hdr 0 50 49) 0) 0 [⟨1, 7, 0⟩] (mkState [] true) [7] ⟨1, 7, 0⟩
    rfl (by simp) (by simp) rfl rfl rfl).1

/-! ### C7 -/

/-- With default origin RetractedBlock the effective origin is never
External. -/
lemma effective_origin_retracted_ne_external (cfg : MinerCfg) (tx : Tx) :
    Miner.effective_origin cfg tx TransactionOrigin.RetractedBlock
      ≠ TransactionOrigin.External := by
  unfold Miner.effective_origin
  rcases cfg.accounts with _ | accts
  · simp
  · by_cases hs : tx.sender ∈ accts
    · simp [hs]
    · simp [hs]

/-- A verified, not-yet-mined transaction of a retracted block is admitted by
the step through the plain add path under its effective origin. -/
lemma add_tx_step_adds_retracted (cfg : MinerCfg) (chain : Chain)
    (c : Option Condition) (acc : TxQueue × List (Except TxError ImportResult))
    (tx : Tx)
    (hchain : chain.tx_in_chain tx.hash = false)
    (hver : cfg.engine.verify_transaction tx chain.best_block_header = none) :
    (⟨tx, Miner.effective_origin cfg tx TransactionOrigin.RetractedBlock, false,
        chain.best_block_number, c⟩ : TQEntry)
      ∈ (Miner.add_tx_step cfg chain TransactionOrigin.RetractedBlock c acc
          tx).fst.entries := by
  unfold Miner.add_tx_step
  simp only [hchain, hver, Bool.false_eq_true, if_false]
  cases heo : Miner.effective_origin cfg tx TransactionOrigin.RetractedBlock
  · simp [TxQueue.add, heo]
  · exact absurd heo (effective_origin_retracted_ne_external cfg tx)
  · simp [TxQueue.add, heo]

/-- Batch version of `add_tx_step_adds_retracted`. -/
lemma add_tx_fold_adds_retracted (cfg : MinerCfg) (chain : Chain)
    (c : Option Condition) (txs : List Tx) :
    ∀ (acc : TxQueue × List (Except TxError ImportResult)) (tx : Tx),
      tx ∈ txs →
      chain.tx_in_chain tx.hash = false →
      cfg.engine.verify_transaction tx chain.best_block_header = none →
      (⟨tx, Miner.effective_origin cfg tx TransactionOrigin.RetractedBlock, false,
          chain.best_block_number, c⟩ : TQEntry)
        ∈ (txs.foldl (Miner.add_tx_step cfg chain TransactionOrigin.RetractedBlock c)
            acc).fst.entries := by
  induction txs with
  | nil => intro acc tx hmem; exact absurd hmem (List.not_mem_nil _)
  | cons t rest ih =>
      intro acc tx hmem hchain hver
      rw [List.foldl_cons]
      rcases List.mem_cons.mp hmem with rfl | hmem2
      · exact add_tx_fold_entries_mono cfg chain TransactionOrigin.RetractedBlock
          c rest _ _ (add_tx_step_adds_retracted cfg chain c acc tx hchain hver)
      · exact ih _ tx hmem2 hchain hver

/-- A reinjection step only grows the queue entries. -/
lemma reinject_step_entries_mono (cfg : MinerCfg) (chain : Chain)
    (s : MinerState) (h : Nat) (e : TQEntry) (he : e ∈ s.tx_queue.entries) :
    e ∈ (Miner.reinject_block_step cfg chain s h).tx_queue.entries := by
  unfold Miner.reinject_block_step Miner.add_transactions_to_queue
  exact add_tx_fold_entries_mono cfg chain TransactionOrigin.RetractedBlock
    none (chain.block_transactions h) (s.tx_queue, []) e he

/-- The reinjection fold only grows the queue entries. -/
lemma reinject_fold_entries_mono (cfg : MinerCfg) (chain : Chain)
    (retracted : List Nat) :
    ∀ (s : MinerState) (e : TQEntry), e ∈ s.tx_queue.entries →
      e ∈ (retracted.foldl (Miner.reinject_block_step cfg chain) s).tx_queue.entries := by
  induction retracted with
  | nil => intro s e he; simpa using he
  | cons rh rest ih =>
      intro s e he
      rw [List.foldl_cons]
      exact ih _ e (reinject_step_entries_mono cfg chain s rh e he)

/-- Every verified, not-yet-mined transaction of every retracted block ends
up in the queue after the reinjection fold, under its effective origin. -/
lemma reinject_fold_adds (cfg : MinerCfg) (chain : Chain)
    (retracted : List Nat) :
    ∀ (s : MinerState) (rh : Nat) (tx : Tx), rh ∈ retracted →
      tx ∈ chain.block_transactions rh →
      chain.tx_in_chain tx.hash = false →
      cfg.engine.verify_transaction tx chain.best_block_header = none →
      (⟨tx, Miner.effective_origin cfg tx TransactionOrigin.RetractedBlock, false,
          chain.best_block_number, none⟩ : TQEntry)
        ∈ (retracted.foldl (Miner.reinject_block_step cfg chain) s).tx_queue.entries := by
  induction retracted with
  | nil => intro s rh tx hmem; exact absurd hmem (List.not_mem_nil _)
  | cons h0 rest ih =>
      intro s rh tx hmem htx hchain hver
      rw [List.foldl_cons]
      rcases List.mem_cons.mp hmem with rfl | hmem2
      · refine reinject_fold_entries_mono cfg chain rest _ _ ?_
        unfold Miner.reinject_block_step Miner.add_transactions_to_queue
        exact add_tx_fold_adds_retracted cfg chain none
          (chain.block_transactions rh) (s.tx_queue, []) tx htx hchain hver
      · exact ih _ rh tx hmem2 htx hchain hver

/-- C7 (amended): `chain_new_blocks` re-injects every verified transaction of
every retracted block into the queue with origin RetractedBlock — overridden
to Local when the recovered sender is a managed account — (a transaction
already contained in the current chain is rejected as AlreadyImported before
reaching the queue), then ages the queue against the chain's (nonce, balance)
snapshots, and runs `update_sealing` if and only if the enacted list is
non-empty; the imported and invalid lists have no effect. -/
theorem C7_chain_new_blocks_contract (cfg : MinerCfg) (chain : Chain)
    (now : Nat) (imported invalid enacted retracted : List Nat)
    (st : MinerState) :
    (∀ imported2 invalid2 : List Nat,
      Miner.chain_new_blocks cfg chain now imported2 invalid2 enacted retracted st
        = Miner.chain_new_blocks cfg chain now imported invalid enacted retracted st)
    ∧ (Miner.chain_new_blocks cfg chain now imported invalid enacted retracted st
        = if enacted.length > 0
          then Miner.update_sealing cfg chain now
            (Miner.chain_new_blocks_pre cfg chain retracted st)
          else Miner.chain_new_blocks_pre cfg chain retracted st)
    ∧ (∀ rh tx, rh ∈ retracted → tx ∈ chain.block_transactions rh →
        chain.tx_in_chain tx.hash = false →
        cfg.engine.verify_transaction tx chain.best_block_header = none →
        (⟨tx, Miner.effective_origin cfg tx TransactionOrigin.RetractedBlock,
            false, chain.best_block_number, none⟩ : TQEntry)
          ∈ (Miner.chain_new_blocks_pre cfg chain retracted st).tx_queue.entries)
    ∧ ((Miner.chain_new_blocks_pre cfg chain retracted st).tx_queue.journal.getLast?
        = some (QueueOp.removeOldOp
            (fun a => (chain.latest_nonce a, chain.latest_balance a))
            chain.best_block_number)) := by
  refine ⟨fun _ _ => rfl, rfl, ?_, ?_⟩
  · intro rh tx hmem htx hchain hver
    unfold Miner.chain_new_blocks_pre
    exact reinject_fold_adds cfg chain retracted _ rh tx hmem htx hchain hver
  · unfold Miner.chain_new_blocks_pre TxQueue.remove_old
    simp

/-- A chain fixture whose every block holds one transaction from sender 7. -/
def c7chain : Chain :=
  { mkChain (hdr 0 50 49) 0 with block_transactions := fun _ => [⟨1, 7, 0⟩] }

/-- C7 counterexample: a miner managing account 7 processes the retraction of
a block holding a transaction from sender 7; the transaction is re-injected
with origin Local, not RetractedBlock as the claim states. -/
theorem C7_counterexample :
    ((Miner.chain_new_blocks ⟨mkOptions, mkEngine, some [7]⟩ c7chain 0 [] [] []
        [77] (mkState [] true)).tx_queue.entries.map TQEntry.origin)
      = [TransactionOrigin.Local]
    ∧ TransactionOrigin.Local ≠ TransactionOrigin.RetractedBlock := by
  exact ⟨rfl, by decide⟩

/-! ### C9 -/

/-- The static sealing conditions of invariant 3: the engine can seal
internally, force-sealing is configured, or notifiers are present. -/
def Miner.seal_capable (cfg : MinerCfg) (st : MinerState) : Bool :=
  cfg.engine.seals_internally.isSome || cfg.options.force_sealing
    || !st.notifiers.isEmpty

/-- The invariant: whenever the static sealing conditions hold, the sealing
work queue is enabled. -/
def Miner.sealing_inv (cfg : MinerCfg) (st : MinerState) : Prop :=
  Miner.seal_capable cfg st = true → st.sealing_work.enabled = true

lemma pb_enabled (cfg : MinerCfg) (chain : Chain) (st : MinerState) :
    (Miner.prepare_block cfg chain st).snd.snd.sealing_work.enabled
      = st.sealing_work.enabled := rfl

lemma pb_notifiers (cfg : MinerCfg) (chain : Chain) (st : MinerState) :
    (Miner.prepare_block cfg chain st).snd.snd.notifiers = st.notifiers := rfl

lemma pw_enabled (st : MinerState) (b : ClosedBlock) (o : Option Nat) :
    (Miner.prepare_work st b o).sealing_work.enabled
      = st.sealing_work.enabled := by
  simp only [Miner.prepare_work]
  repeat' split
  all_goals rfl

lemma pw_notifiers (st : MinerState) (b : ClosedBlock) (o : Option Nat) :
    (Miner.prepare_work st b o).notifiers = st.notifiers := by
  simp only [Miner.prepare_work]
  repeat' split
  all_goals rfl

lemma sii_enabled (cfg : MinerCfg) (chain : Chain) (now : Nat)
    (b : ClosedBlock) (st : MinerState) :
    (Miner.seal_and_import_block_internally cfg chain now b st).snd.sealing_work.enabled
      = st.sealing_work.enabled := by
  simp only [Miner.seal_and_import_block_internally]
  repeat' split
  all_goals rfl

lemma sii_notifiers (cfg : MinerCfg) (chain : Chain) (now : Nat)
    (b : ClosedBlock) (st : MinerState) :
    (Miner.seal_and_import_block_internally cfg chain now b st).snd.notifiers
      = st.notifiers := by
  simp only [Miner.seal_and_import_block_internally]
  repeat' split
  all_goals rfl

lemma rr_notifiers (cfg : MinerCfg) (now best : Nat) (st : MinerState) :
    (Miner.requires_reseal cfg now best st).snd.notifiers = st.notifiers := by
  simp only [Miner.requires_reseal]
  repeat' split
  all_goals rfl

lemma rr_enabled_of_capable (cfg : MinerCfg) (now best : Nat) (st : MinerState)
    (hcap : Miner.seal_capable cfg st = true)
    (hen : st.sealing_work.enabled = true) :
    (Miner.requires_reseal cfg now best st).snd.sealing_work.enabled = true := by
  unfold Miner.seal_capable at hcap
  unfold Miner.requires_reseal Miner.forced_sealing
  rcases hsi : cfg.engine.seals_internally with _ | b
  all_goals cases hf : cfg.options.force_sealing
  all_goals cases hne : st.notifiers.isEmpty
  all_goals simp_all

lemma us_notifiers (cfg : MinerCfg) (chain : Chain) (now : Nat)
    (st : MinerState) :
    (Miner.update_sealing cfg chain now st).notifiers = st.notifiers := by
  simp only [Miner.update_sealing]
  split
  · split
    · rw [sii_notifiers, pb_notifiers, rr_notifiers]
    · rw [pw_notifiers, pb_notifiers, rr_notifiers]
    · rw [pb_notifiers, rr_notifiers]
  · rw [rr_notifiers]

lemma us_enabled_of_capable (cfg : MinerCfg) (chain : Chain) (now : Nat)
    (st : MinerState) (hcap : Miner.seal_capable cfg st = true)
    (hen : st.sealing_work.enabled = true) :
    (Miner.update_sealing cfg chain now st).sealing_work.enabled = true := by
  have hrr := rr_enabled_of_capable cfg now chain.best_block_number st hcap hen
  simp only [Miner.update_sealing]
  split
  · split
    · rw [sii_enabled, pb_enabled]; exact hrr
    · rw [pw_enabled, pb_enabled]; exact hrr
    · rw [pb_enabled]; exact hrr
  · exact hrr

lemma pws_notifiers (cfg : MinerCfg) (chain : Chain) (st : MinerState) :
    (Miner.prepare_work_sealing cfg chain st).snd.notifiers = st.notifiers := by
  simp only [Miner.prepare_work_sealing]
  split
  · rw [pw_notifiers, pb_notifiers]
  · rfl

lemma pws_enabled_of_enabled (cfg : MinerCfg) (chain : Chain) (st : MinerState)
    (hen : st.sealing_work.enabled = true) :
    (Miner.prepare_work_sealing cfg chain st).snd.sealing_work.enabled = true := by
  simp only [Miner.prepare_work_sealing]
  split
  · rw [pw_enabled, pb_enabled]
  · exact hen

lemma ss_notifiers (cfg : MinerCfg) (bh : Nat) (s : List Nat)
    (st : MinerState) :
    (Miner.submit_seal cfg bh s st).snd.notifiers = st.notifiers := by
  simp only [Miner.submit_seal]
  repeat' split
  all_goals rfl

lemma ss_enabled (cfg : MinerCfg) (bh : Nat) (s : List Nat) (st : MinerState) :
    (Miner.submit_seal cfg bh s st).snd.sealing_work.enabled
      = st.sealing_work.enabled := by
  simp only [Miner.submit_seal]
  repeat' split
  all_goals rfl

lemma cnb_pre_notifiers (cfg : MinerCfg) (chain : Chain)
    (retracted : List Nat) (st : MinerState) :
    (Miner.chain_new_blocks_pre cfg chain retracted st).notifiers
      = st.notifiers := by
  simp only [Miner.chain_new_blocks_pre]
  have hfold : ∀ (l : List Nat) (s : MinerState),
      (l.foldl (Miner.reinject_block_step cfg chain) s).notifiers
        = s.notifiers := by
    intro l
    induction l with
    | nil => intro s; rfl
    | cons h0 rest ih => intro s; rw [List.foldl_cons, ih]; rfl
  rw [hfold]
  simp only [Miner.update_gas_limit, Miner.recalibrate_minimal_gas_price]
  repeat' split
  all_goals rfl

lemma cnb_pre_enabled (cfg : MinerCfg) (chain : Chain)
    (retracted : List Nat) (st : MinerState) :
    (Miner.chain_new_blocks_pre cfg chain retracted st).sealing_work.enabled
      = st.sealing_work.enabled := by
  simp only [Miner.chain_new_blocks_pre]
  have hfold : ∀ (l : List Nat) (s : MinerState),
      (l.foldl (Miner.reinject_block_step cfg chain) s).sealing_work.enabled
        = s.sealing_work.enabled := by
    intro l
    induction l with
    | nil => intro s; rfl
    | cons h0 rest ih => intro s; rw [List.foldl_cons, ih]; rfl
  rw [hfold]
  simp only [Miner.update_gas_limit, Miner.recalibrate_minimal_gas_price]
  repeat' split
  all_goals rfl

lemma seal_capable_eq_of_notifiers (cfg : MinerCfg) {st1 st2 : MinerState}
    (h : st1.notifiers = st2.notifiers) :
    Miner.seal_capable cfg st1 = Miner.seal_capable cfg st2 := by
  unfold Miner.seal_capable
  rw [h]

lemma io_notifiers (cfg : MinerCfg) (chain : Chain) (now : Nat) (tx : Tx)
    (cond : Option Condition) (st : MinerState) :
    (Miner.import_own_transaction cfg chain now tx cond st).snd.notifiers
      = st.notifiers := by
  simp only [Miner.import_own_transaction]
  repeat' split
  all_goals simp only [us_notifiers, pws_notifiers]

lemma io_enabled_of_capable (cfg : MinerCfg) (chain : Chain) (now : Nat)
    (tx : Tx) (cond : Option Condition) (st : MinerState)
    (hcap : Miner.seal_capable cfg st = true)
    (hen : st.sealing_work.enabled = true) :
    (Miner.import_own_transaction cfg chain now tx cond st).snd.sealing_work.enabled
      = true := by
  simp only [Miner.import_own_transaction]
  repeat' split
  · exact us_enabled_of_capable cfg chain now _ hcap hen
  · refine us_enabled_of_capable cfg chain now _ ?_ ?_
    · rw [seal_capable_eq_of_notifiers cfg (pws_notifiers cfg chain _)]
      exact hcap
    · exact pws_enabled_of_enabled cfg chain _ hen
  · exact pws_enabled_of_enabled cfg chain _ hen
  · exact hen

lemma ie_notifiers (cfg : MinerCfg) (chain : Chain) (now : Nat)
    (txs : List Tx) (st : MinerState) :
    (Miner.import_external_transactions cfg chain now txs st).snd.notifiers
      = st.notifiers := by
  simp only [Miner.import_external_transactions]
  repeat' split
  all_goals simp only [us_notifiers]

lemma ie_enabled_of_capable (cfg : MinerCfg) (chain : Chain) (now : Nat)
    (txs : List Tx) (st : MinerState)
    (hcap : Miner.seal_capable cfg st = true)
    (hen : st.sealing_work.enabled = true) :
    (Miner.import_external_transactions cfg chain now txs st).snd.sealing_work.enabled
      = true := by
  simp only [Miner.import_external_transactions]
  repeat' split
  · exact us_enabled_of_capable cfg chain now _ hcap hen
  · exact hen

lemma cnb_notifiers (cfg : MinerCfg) (chain : Chain) (now : Nat)
    (imported invalid enacted retracted : List Nat) (st : MinerState) :
    (Miner.chain_new_blocks cfg chain now imported invalid enacted retracted
      st).notifiers = st.notifiers := by
  simp only [Miner.chain_new_blocks]
  split
  · rw [us_notifiers, cnb_pre_notifiers]
  · rw [cnb_pre_notifiers]

lemma cnb_enabled_of_capable (cfg : MinerCfg) (chain : Chain) (now : Nat)
    (imported invalid enacted retracted : List Nat) (st : MinerState)
    (hcap : Miner.seal_capable cfg st = true)
    (hen : st.sealing_work.enabled = true) :
    (Miner.chain_new_blocks cfg chain now imported invalid enacted retracted
      st).sealing_work.enabled = true := by
  simp only [Miner.chain_new_blocks]
  split
  · refine us_enabled_of_capable cfg chain now _ ?_ ?_
    · rw [seal_capable_eq_of_notifiers cfg (cnb_pre_notifiers cfg chain retracted st)]
      exact hcap
    · rw [cnb_pre_enabled]; exact hen
  · rw [cnb_pre_enabled]; exact hen

lemma sa_notifiers (cfg : MinerCfg) (a : Nat) (st : MinerState) :
    (Miner.set_author cfg a st).notifiers = st.notifiers := by
  simp only [Miner.set_author]
  split
  all_goals rfl

lemma ses_notifiers (cfg : MinerCfg) (a : Nat) (st : MinerState) :
    (Miner.set_engine_signer cfg a st).notifiers = st.notifiers := by
  simp only [Miner.set_engine_signer]
  repeat' split
  all_goals rfl

/-- The public operations of the miner singleton, with their inputs. -/
inductive MinerOp
  | pushNotifier (n : Nat)
  | setAuthor (a : Nat)
  | setEngineSigner (a : Nat)
  | clearOp
  | requiresReseal (now best : Nat)
  | updateSealing (chain : Chain) (now : Nat)
  | prepareWorkSealing (chain : Chain)
  | mapSealingWork (chain : Chain)
  | submitSeal (bh : Nat) (s : List Nat)
  | importOwn (chain : Chain) (now : Nat) (tx : Tx) (cond : Option Condition)
  | importExternal (chain : Chain) (now : Nat) (txs : List Tx)
  | chainNewBlocks (chain : Chain) (now : Nat)
      (imported invalid enacted retracted : List Nat)

/-- The state transition of each miner operation (result values dropped). -/
def Miner.step (cfg : MinerCfg) (op : MinerOp) (st : MinerState) : MinerState :=
  match op with
  | .pushNotifier n => Miner.push_notifier n st
  | .setAuthor a => Miner.set_author cfg a st
  | .setEngineSigner a => Miner.set_engine_signer cfg a st
  | .clearOp => Miner.clear st
  | .requiresReseal now best => (Miner.requires_reseal cfg now best st).snd
  | .updateSealing chain now => Miner.update_sealing cfg chain now st
  | .prepareWorkSealing chain => (Miner.prepare_work_sealing cfg chain st).snd
  | .mapSealingWork chain => (Miner.map_sealing_work cfg chain st).snd
  | .submitSeal bh s => (Miner.submit_seal cfg bh s st).snd
  | .importOwn chain now tx cond =>
      (Miner.import_own_transaction cfg chain now tx cond st).snd
  | .importExternal chain now txs =>
      (Miner.import_external_transactions cfg chain now txs st).snd
  | .chainNewBlocks chain now imported invalid enacted retracted =>
      Miner.chain_new_blocks cfg chain now imported invalid enacted retracted st

/-- C9: at construction `sealing_work.enabled` equals exactly the disjunction
"engine seals internally, or force-sealing, or notifiers present", and the
invariant "`enabled` holds whenever that disjunction holds" is preserved by
every miner operation — in particular `requires_reseal`, the only operation
that ever disables sealing, never disables it while the disjunction holds. -/
theorem C9_sealing_enabled_invariant (cfg : MinerCfg) (now0 : Nat) :
    ((Miner.init_state cfg now0).sealing_work.enabled
      = Miner.seal_capable cfg (Miner.init_state cfg now0))
    ∧ (∀ (op : MinerOp) (st : MinerState),
        Miner.sealing_inv cfg st → Miner.sealing_inv cfg (Miner.step cfg op st)) := by
  constructor
  · rcases hsi : cfg.engine.seals_internally with _ | b
    all_goals cases hf : cfg.options.force_sealing
    all_goals cases hne : cfg.options.new_work_notify
    all_goals simp [Miner.init_state, Miner.seal_capable, hsi, hf, hne]
  · intro op st hinv
    cases op with
    | pushNotifier n =>
        intro _
        rfl
    | setAuthor a =>
        intro hcap
        simp only [Miner.step] at hcap ⊢
        have hcap0 : Miner.seal_capable cfg st = true := by
          rw [seal_capable_eq_of_notifiers cfg (sa_notifiers cfg a st)] at hcap
          exact hcap
        unfold Miner.set_author
        rcases hsi : cfg.engine.seals_internally with _ | b
        · simp only [hsi, Option.isSome_none, Bool.false_eq_true, if_false]
          exact hinv hcap0
        · simp [hsi]
    | setEngineSigner a =>
        intro hcap
        simp only [Miner.step] at hcap ⊢
        have hcap0 : Miner.seal_capable cfg st = true := by
          rw [seal_capable_eq_of_notifiers cfg (ses_notifiers cfg a st)] at hcap
          exact hcap
        unfold Miner.set_engine_signer
        rcases hsi : cfg.engine.seals_internally with _ | b
        · simp only [hsi, Option.isSome_none, Bool.false_eq_true, if_false]
          exact hinv hcap0
        · rcases hacc : cfg.accounts with _ | accts
          · simp only [hsi, hacc]
            exact hinv hcap0
          · simp [hsi, hacc]
    | clearOp =>
        intro hcap
        exact hinv hcap
    | requiresReseal now best =>
        intro hcap
        simp only [Miner.step] at hcap ⊢
        have hcap0 : Miner.seal_capable cfg st = true := by
          rw [seal_capable_eq_of_notifiers cfg
            (rr_notifiers cfg now best st)] at hcap
          exact hcap
        exact rr_enabled_of_capable cfg now best st hcap0 (hinv hcap0)
    | updateSealing chain now =>
        intro hcap
        simp only [Miner.step] at hcap ⊢
        have hcap0 : Miner.seal_capable cfg st = true := by
          rw [seal_capable_eq_of_notifiers cfg
            (us_notifiers cfg chain now st)] at hcap
          exact hcap
        exact us_enabled_of_capable cfg chain now st hcap0 (hinv hcap0)
    | prepareWorkSealing chain =>
        intro hcap
        simp only [Miner.step] at hcap ⊢
        have hcap0 : Miner.seal_capable cfg st = true := by
          rw [seal_capable_eq_of_notifiers cfg
            (pws_notifiers cfg chain st)] at hcap
          exact hcap
        exact pws_enabled_of_enabled cfg chain st (hinv hcap0)
    | mapSealingWork chain =>
        intro hcap
        simp only [Miner.step] at hcap ⊢
        have hn : (Miner.map_sealing_work cfg chain st).snd.notifiers
            = st.notifiers := by
          simp only [Miner.map_sealing_work]
          rw [pws_notifiers]
        have hcap0 : Miner.seal_capable cfg st = true := by
          rw [seal_capable_eq_of_notifiers cfg hn] at hcap
          exact hcap
        show (Miner.map_sealing_work cfg chain st).snd.sealing_work.enabled = true
        simp only [Miner.map_sealing_work]
        exact pws_enabled_of_enabled cfg chain st (hinv hcap0)
    | submitSeal bh s =>
        intro hcap
        simp only [Miner.step] at hcap ⊢
        have hcap0 : Miner.seal_capable cfg st = true := by
          rw [seal_capable_eq_of_notifiers cfg (ss_notifiers cfg bh s st)] at hcap
          exact hcap
        rw [ss_enabled]
        exact hinv hcap0
    | importOwn chain now tx cond =>
        intro hcap
        simp only [Miner.step] at hcap ⊢
        have hcap0 : Miner.seal_capable cfg st = true := by
          rw [seal_capable_eq_of_notifiers cfg
            (io_notifiers cfg chain now tx cond st)] at hcap
          exact hcap
        exact io_enabled_of_capable cfg chain now tx cond st hcap0 (hinv hcap0)
    | importExternal chain now txs =>
        intro hcap
        simp only [Miner.step] at hcap ⊢
        have hcap0 : Miner.seal_capable cfg st = true := by
          rw [seal_capable_eq_of_notifiers cfg
            (ie_notifiers cfg chain now txs st)] at hcap
          exact hcap
        exact ie_enabled_of_capable cfg chain now txs st hcap0 (hinv hcap0)
    | chainNewBlocks chain now imported invalid enacted retracted =>
        intro hcap
        simp only [Miner.step] at hcap ⊢
        have hcap0 : Miner.seal_capable cfg st = true := by
          rw [seal_capable_eq_of_notifiers cfg
            (cnb_notifiers cfg chain now imported invalid enacted retracted st)] at hcap
          exact hcap
        exact cnb_enabled_of_capable cfg chain now imported invalid enacted
          retracted st hcap0 (hinv hcap0)

/-! ### C4 -/

/-- The heavy-transaction check only grows the penalize set. -/
lemma heavy_check_pen_sub (opts : MinerOptions) (chain : Chain) (tx : Tx)
    (q : TxQueue) (pen : List Nat) (h : Nat) (hh : h ∈ pen) :
    h ∈ (Miner.heavy_check opts chain tx q pen).snd := by
  simp only [Miner.heavy_check]
  repeat' split
  all_goals simp [hh]

/-- The push loop only grows the penalize set. -/
lemma push_loop_pen_mono (opts : MinerOptions) (chain : Chain) :
    ∀ (l : List Tx) (b : OpenBlock) (q : TxQueue) (inv pen : List Nat)
      (cnt h : Nat), h ∈ pen →
      h ∈ (Miner.push_loop opts chain l b q inv pen cnt).penalized := by
  intro l
  induction l with
  | nil =>
      intro b q inv pen cnt h hh
      simpa [Miner.push_loop] using hh
  | cons tx rest ih =>
      intro b q inv pen cnt h hh
      simp only [Miner.push_loop]
      cases hp : chain.push_transaction b tx with
      | ok b2 =>
          dsimp only
          exact ih _ _ _ _ _ _ (heavy_check_pen_sub opts chain tx q pen h hh)
      | error e =>
          cases e with
          | blockGasLimitReached gl gu g =>
              dsimp only
              split
              · split
                all_goals simp [List.mem_append,
                  heavy_check_pen_sub opts chain tx q pen h hh]
              · refine ih _ _ _ _ _ _ ?_
                split
                all_goals simp [List.mem_append,
                  heavy_check_pen_sub opts chain tx q pen h hh]
          | invalidNonce e g =>
              dsimp only
              exact ih _ _ _ _ _ _ (heavy_check_pen_sub opts chain tx q pen h hh)
          | alreadyImported =>
              dsimp only
              exact ih _ _ _ _ _ _ (heavy_check_pen_sub opts chain tx q pen h hh)
          | otherError code =>
              dsimp only
              exact ih _ _ _ _ _ _ (heavy_check_pen_sub opts chain tx q pen h hh)

/-- The push loop only grows the invalid set. -/
lemma push_loop_inv_mono (opts : MinerOptions) (chain : Chain) :
    ∀ (l : List Tx) (b : OpenBlock) (q : TxQueue) (inv pen : List Nat)
      (cnt h : Nat), h ∈ inv →
      h ∈ (Miner.push_loop opts chain l b q inv pen cnt).invalid := by
  intro l
  induction l with
  | nil =>
      intro b q inv pen cnt h hh
      simpa [Miner.push_loop] using hh
  | cons tx rest ih =>
      intro b q inv pen cnt h hh
      simp only [Miner.push_loop]
      cases hp : chain.push_transaction b tx with
      | ok b2 =>
          dsimp only
          exact ih _ _ _ _ _ _ hh
      | error e =>
          cases e with
          | blockGasLimitReached gl gu g =>
              dsimp only
              split
              · simpa using hh
              · exact ih _ _ _ _ _ _ hh
          | invalidNonce e g =>
              dsimp only
              exact ih _ _ _ _ _ _ hh
          | alreadyImported =>
              dsimp only
              exact ih _ _ _ _ _ _ hh
          | otherError code =>
              dsimp only
              exact ih _ _ _ _ _ _ (by simp [List.mem_append, hh])

/-- C4: the push loop's treatment of every push outcome, and the post-close
queue cleanup of `prepare_block`. A `BlockGasLimitReached{gas_limit,
gas_used, gas}` outcome penalizes the transaction when `gas > gas_limit`,
stops the loop when `gas_limit - gas_used < 21000`, and otherwise skips only
this transaction; an execution `InvalidNonce` and an `AlreadyImported`
outcome skip the transaction; every other error records the hash as invalid
and continues. After the block is closed, every invalid hash is removed from
the queue with reason Invalid using `chain.latest_nonce` as nonce oracle,
then every penalize-hash is penalized. -/
theorem C4_prepare_block_error_handling (opts : MinerOptions) (chain : Chain)
    (tx : Tx) (rest : List Tx) (b : OpenBlock) (q : TxQueue)
    (inv pen : List Nat) (cnt : Nat) (cfg : MinerCfg) (st : MinerState) :
    (∀ gas_limit gas_used gas,
       chain.push_transaction b tx
          = Except.error (PushError.blockGasLimitReached gas_limit gas_used gas) →
       ((gas > gas_limit →
           tx.hash ∈ (Miner.push_loop opts chain (tx :: rest) b q inv pen
             cnt).penalized)
        ∧ (gas_limit - gas_used < min_tx_gas →
            Miner.push_loop opts chain (tx :: rest) b q inv pen cnt
              = ⟨b, (Miner.heavy_check opts chain tx q pen).fst, inv,
                  (if gas > gas_limit
                   then (Miner.heavy_check opts chain tx q pen).snd ++ [tx.hash]
                   else (Miner.heavy_check opts chain tx q pen).snd), cnt⟩)
        ∧ (¬ gas_limit - gas_used < min_tx_gas →
            Miner.push_loop opts chain (tx :: rest) b q inv pen cnt
              = Miner.push_loop opts chain rest b
                  (Miner.heavy_check opts chain tx q pen).fst inv
                  (if gas > gas_limit
                   then (Miner.heavy_check opts chain tx q pen).snd ++ [tx.hash]
                   else (Miner.heavy_check opts chain tx q pen).snd) cnt)))
    ∧ (∀ expected got,
        chain.push_transaction b tx
            = Except.error (PushError.invalidNonce expected got) →
        Miner.push_loop opts chain (tx :: rest) b q inv pen cnt
          = Miner.push_loop opts chain rest b
              (Miner.heavy_check opts chain tx q pen).fst inv
              (Miner.heavy_check opts chain tx q pen).snd cnt)
    ∧ (chain.push_transaction b tx = Except.error PushError.alreadyImported →
        Miner.push_loop opts chain (tx :: rest) b q inv pen cnt
          = Miner.push_loop opts chain rest b
              (Miner.heavy_check opts chain tx q pen).fst inv
              (Miner.heavy_check opts chain tx q pen).snd cnt)
    ∧ (∀ code, chain.push_transaction b tx
            = Except.error (PushError.otherError code) →
        (Miner.push_loop opts chain (tx :: rest) b q inv pen cnt
            = Miner.push_loop opts chain rest b
                (Miner.heavy_check opts chain tx q pen).fst (inv ++ [tx.hash])
                (Miner.heavy_check opts chain tx q pen).snd cnt)
        ∧ tx.hash ∈ (Miner.push_loop opts chain (tx :: rest) b q inv pen
            cnt).invalid)
    ∧ ((Miner.prepare_block cfg chain st).snd.snd.tx_queue
        = (let out := Miner.push_loop cfg.options chain
             (st.tx_queue.top_transactions chain.best_block_number
               chain.best_block_timestamp
               (if chain.best_block_number + 1
                   ≥ cfg.engine.params.dust_protection_transition
                then some (cfg.engine.params.nonce_cap_increment
                    * (chain.best_block_number + 1))
                else none))
             (match (st.sealing_work.queue.popIf
                 (fun bl => bl.header.parentHash == chain.best_block_hash)).fst with
              | some old_block => chain.reopen_block old_block
              | none => chain.prepare_open_block st.author st.gas_range_target
                  st.extra_data)
             st.tx_queue [] [] 0
           out.penalized.foldl (fun qq h => qq.penalize h)
             (out.invalid.foldl
               (fun qq h => qq.remove h chain.latest_nonce RemovalReason.Invalid)
               out.queue))) := by
  refine ⟨?_, ?_, ?_, ?_, rfl⟩
  · intro gl gu g hp
    refine ⟨?_, ?_, ?_⟩
    · intro hg
      simp only [Miner.push_loop, hp]
      split
      · simp [hg]
      · apply push_loop_pen_mono
        simp [hg]
    · intro hlow
      simp only [Miner.push_loop, hp]
      rw [if_pos hlow]
    · intro hlow
      simp only [Miner.push_loop, hp]
      rw [if_neg hlow]
  · intro e g hp
    simp only [Miner.push_loop, hp]
  · intro hp
    simp only [Miner.push_loop, hp]
  · intro code hp
    constructor
    · simp only [Miner.push_loop, hp]
    · simp only [Miner.push_loop, hp]
      apply push_loop_inv_mono
      simp

end PM
